import Mathlib

/-!
# arena_pool: a fixed-capacity object pool

Shallow embedding of `include/arena_pool.hpp`, and of the pool phase of
`bench::run_rolling` in `bench/bench_arena_pool.cpp`.

* A `T*` is its byte address, a natural number; `nullptr` is address `0`.
* `sizeof(T)` is the field `sizeof_T`, and the array `new T[capacity_]` starts at the
  byte address `arena_`; element `i` of the array lives at `arena_ + i * sizeof_T`.
* `std::size_t` is 64 bits wide: values are naturals taken modulo `2 ^ 64` where the
  source computes with them. Addresses of the storage, `arena_ + capacity_` included, are
  below `2 ^ 64` (`Layout`), so the pointer comparisons of the source are comparisons of
  naturals.
* The pointer difference `ptr - arena_` is the quotient of the byte difference by
  `sizeof(T)` when `ptr` is at an element of the array; for any other address it is the
  value the compiled exact division computes (`ptr_index`).
* `std::vector<T*> pool_` is a list whose last element is `back()`.
* `std::vector<uint8_t> allocated_` is a list of booleans (the source stores only
  `true` and `false` in it).
* An access to `allocated_` outside its bounds is undefined behaviour in the source and
  is the error `Fault.out_of_range` here.
* `assert(false && "...")` is modelled by the `Signal` that `deallocate` reports next
  to the state at the `return` that follows the assertion.
-/

namespace ArenaPool

/-- Number of values of `std::size_t`. -/
def SIZE_MOD : Nat := 2 ^ 64

/-- Data members of `arena_pool<T>`, with `sizeof(T)` made explicit. -/
structure arena_pool where
  sizeof_T : Nat
  capacity_ : Nat
  arena_ : Nat
  pool_ : List Nat
  allocated_ : List Bool
  deriving DecidableEq, Repr

/-- Undefined behaviour of the source that the model makes explicit. -/
inductive Fault where
  | out_of_range
  deriving DecidableEq, Repr

/-- Outcome of `deallocate`: `released` is the path that reaches `pool_.push_back(ptr)`,
the other three are the assertions
`"attempted to deallocate nullptr"`, `"attempted to deallocate foreign ptr"` and
`"attempted double deallocate"`. -/
inductive Signal where
  | released
  | NullRelease
  | ForeignPointer
  | DoubleRelease
  deriving DecidableEq, Repr

/-- Address of `&arena_[i]` for an array of elements of size `sz` starting at `base`. -/
def slot_addr (sz base i : Nat) : Nat := base + i * sz

/-- The storage can be laid out at `base`: elements have a size, the array does not start
at the null address, and its one-past-the-end address is an address. -/
def Layout (sz base capacity : Nat) : Prop :=
  0 < sz ∧ 0 < base ∧ base + capacity * sz < SIZE_MOD

instance (sz base capacity : Nat) : Decidable (Layout sz base capacity) := by
  unfold Layout; infer_instance

/-- The constructor `arena_pool(capacity)`, where `base` is the address that
`new T[capacity_]` returned: the loop pushes `&arena_[0]`, ..., `&arena_[capacity_ - 1]`
in this order, and `allocated_.resize(capacity_, false)` fills the table. -/
def construct (sz base capacity : Nat) : arena_pool where
  sizeof_T := sz
  capacity_ := capacity
  arena_ := base
  pool_ := (List.range capacity).map (slot_addr sz base)
  allocated_ := List.replicate capacity false

/-- The query `capacity()`. -/
def capacity (s : arena_pool) : Nat := s.capacity_

/-- The query `used()`: `capacity_ - pool_.size()` in `std::size_t` arithmetic. -/
def used (s : arena_pool) : Nat :=
  (s.capacity_ + SIZE_MOD - s.pool_.length % SIZE_MOD) % SIZE_MOD

/-- The query `empty()`: `pool_.empty()`. -/
def empty (s : arena_pool) : Bool := s.pool_.isEmpty

/-- The query `full()`: `pool_.size() == capacity_`. -/
def full (s : arena_pool) : Bool := decide (s.pool_.length % SIZE_MOD = s.capacity_)

/-- Exponent of the largest power of 2 that divides `n`, for `0 < n < 2 ^ fuel`. -/
def two_adic : Nat → Nat → Nat
  | 0, _ => 0
  | fuel + 1, n => if n % 2 = 0 ∧ n ≠ 0 then 1 + two_adic fuel (n / 2) else 0

/-- One Newton step `x * (2 - m * x)` in `std::size_t` arithmetic. -/
def newton_step (m x : Nat) : Nat :=
  (x * ((2 + SIZE_MOD - (m * x) % SIZE_MOD) % SIZE_MOD)) % SIZE_MOD

/-- The inverse of an odd `m` modulo `2 ^ 64`, the constant by which compiled code
multiplies to divide exactly by `m` (for `m = 3` it is `0xAAAAAAAAAAAAAAAB`). -/
def odd_inverse (m : Nat) : Nat := (newton_step m)^[5] (m % SIZE_MOD)

/-- The value `static_cast<std::size_t>(ptr - base)` for pointers to elements of size
`sz`. When the byte difference is a multiple of `sz` (both pointers are at elements of the
array) the pointer difference is the quotient. Otherwise the subtraction is undefined in
C++ and the value is the one the compiled exact division yields: with `sz = 2 ^ k * m`,
`m` odd, an arithmetic shift right by `k` followed by a multiplication by the inverse of
`m` modulo `2 ^ 64`; for `sz` a power of two this is the byte difference divided by `sz`,
rounded down. The cast reduces the value modulo `2 ^ 64`. -/
def ptr_index (sz base ptr : Nat) : Nat :=
  let d : Int := (ptr : Int) - (base : Int)
  if d % (sz : Int) = 0 then Int.toNat ((d / (sz : Int)) % (SIZE_MOD : Int))
  else
    let k := two_adic 64 sz
    Int.toNat (((d / (2 ^ k : Int)) * (odd_inverse (sz / 2 ^ k) : Int)) % (SIZE_MOD : Int))

/-- The index `static_cast<std::size_t>(ptr - arena_)` used by `allocated(ptr)`. -/
def allocated_index (s : arena_pool) (ptr : Nat) : Nat :=
  ptr_index s.sizeof_T s.arena_ ptr

/-- Reading `allocated(ptr)`. -/
def get_allocated (s : arena_pool) (ptr : Nat) : Except Fault Bool :=
  match s.allocated_[allocated_index s ptr]? with
  | some b => .ok b
  | none => .error .out_of_range

/-- Writing `allocated(ptr) = v`. -/
def set_allocated (s : arena_pool) (ptr : Nat) (v : Bool) : Except Fault arena_pool :=
  if allocated_index s ptr < s.allocated_.length then
    .ok { s with allocated_ := s.allocated_.set (allocated_index s ptr) v }
  else .error .out_of_range

/-- The member function `allocate()`: the returned address (`0` for `nullptr`) and the
state after the call. -/
def allocate (s : arena_pool) : Except Fault (Nat × arena_pool) :=
  if empty s then .ok (0, s)
  else
    let ptr := s.pool_.getLastD 0
    match set_allocated { s with pool_ := s.pool_.dropLast } ptr true with
    | .ok s1 => .ok (ptr, s1)
    | .error e => .error e

/-- The member function `deallocate(ptr)`: the three checks in the order of the source,
then the release. -/
def deallocate (s : arena_pool) (ptr : Nat) : Except Fault (Signal × arena_pool) :=
  if ptr = 0 then .ok (.NullRelease, s)
  else if ptr < s.arena_ ∨ ptr ≥ s.arena_ + s.capacity_ * s.sizeof_T then
    .ok (.ForeignPointer, s)
  else
    match get_allocated s ptr with
    | .error e => .error e
    | .ok false => .ok (.DoubleRelease, s)
    | .ok true =>
      match set_allocated s ptr false with
      | .ok s1 => .ok (.released, { s1 with pool_ := s1.pool_ ++ [ptr] })
      | .error e => .error e

/-- One call of the public interface. -/
inductive Call where
  | allocate
  | deallocate (ptr : Nat)
  deriving DecidableEq, Repr

/-- A pool together with the addresses that are live: returned by a successful
`allocate()` and not since passed to a `deallocate` that released them. -/
structure Tracked where
  pool : arena_pool
  live : List Nat
  deriving DecidableEq, Repr

/-- One call on a tracked pool. -/
def step (t : Tracked) : Call → Except Fault Tracked
  | .allocate =>
    match allocate t.pool with
    | .ok (p, s1) => .ok ⟨s1, if p = 0 then t.live else p :: t.live⟩
    | .error e => .error e
  | .deallocate ptr =>
    match deallocate t.pool ptr with
    | .ok (.released, s1) => .ok ⟨s1, t.live.filter (fun q => q != ptr)⟩
    | .ok (_, s1) => .ok ⟨s1, t.live⟩
    | .error e => .error e

/-- A sequence of calls, from left to right. -/
def run (t : Tracked) : List Call → Except Fault Tracked
  | [] => .ok t
  | c :: cs =>
    match step t c with
    | .ok t1 => run t1 cs
    | .error e => .error e

/-- The caller's books: the pool, and the addresses the caller holds, that is, those a
successful `allocate()` returned and the caller has not since passed to `deallocate`. -/
structure Caller where
  pool : arena_pool
  held : List Nat
  deriving DecidableEq, Repr

/-- One call as the caller sees it: what `deallocate` is given leaves the caller's hands
whatever the outcome of the call. -/
def caller_step (c : Caller) : Call → Except Fault Caller
  | .allocate =>
    match allocate c.pool with
    | .ok (p, s1) => .ok ⟨s1, if p = 0 then c.held else p :: c.held⟩
    | .error e => .error e
  | .deallocate ptr =>
    match deallocate c.pool ptr with
    | .ok (_, s1) => .ok ⟨s1, c.held.filter (fun q => q != ptr)⟩
    | .error e => .error e

/-- A sequence of calls as the caller sees it, from left to right. -/
def caller_run (c : Caller) : List Call → Except Fault Caller
  | [] => .ok c
  | x :: xs =>
    match caller_step c x with
    | .ok c1 => caller_run c1 xs
    | .error e => .error e

/-- The sequence applies `deallocate` only to addresses the caller holds at the time of
the call. -/
def held_only (c : Caller) : List Call → Bool
  | [] => true
  | x :: xs =>
    (match x with
      | .allocate => true
      | .deallocate p => decide (p ∈ c.held)) &&
    (match caller_step c x with
      | .ok c1 => held_only c1 xs
      | .error _ => false)

/-- The caller's books right after construction: nothing is held. -/
def caller_fresh (sz base capacity : Nat) : Caller := ⟨construct sz base capacity, []⟩

/-- The tracked pool right after construction: nothing is live. -/
def fresh (sz base capacity : Nat) : Tracked := ⟨construct sz base capacity, []⟩

/-- The first `k` of consecutive `allocate()` calls: the addresses they returned, in
call order, and the final state. -/
def allocate_n (s : arena_pool) : Nat → Except Fault (List Nat × arena_pool)
  | 0 => .ok ([], s)
  | k + 1 =>
    match allocate s with
    | .ok (p, s1) =>
      match allocate_n s1 k with
      | .ok (ps, s2) => .ok (p :: ps, s2)
      | .error e => .error e
    | .error e => .error e

/-! ## The invariant of the representation

It holds after every sequence of calls that returned, whatever their arguments: the table
has one flag per slot, every free-list entry lies in the storage range and has its index
inside the table, no two entries have the same index, and the flag at an index is clear
exactly when the free-list holds an entry with that index. -/

structure Consistent (sz base C : Nat) (s : arena_pool) : Prop where
  h_sz : s.sizeof_T = sz
  h_cap : s.capacity_ = C
  h_base : s.arena_ = base
  table : s.allocated_.length = C
  in_range : ∀ p ∈ s.pool_, base ≤ p ∧ p < base + C * sz
  index_lt : ∀ p ∈ s.pool_, ptr_index sz base p < C
  nodup : (s.pool_.map (ptr_index sz base)).Nodup
  flags : ∀ i, i < C → (s.allocated_[i]? = some false ↔ i ∈ s.pool_.map (ptr_index sz base))

/-! ## Invariants of tracked runs -/

/-- Holds after every sequence of calls that returned: the pool is consistent and no live
address is in the free-list. -/
structure Sound (sz base C : Nat) (t : Tracked) : Prop where
  pool_ok : Consistent sz base C t.pool
  live_nodup : t.live.Nodup
  disjoint : ∀ p ∈ t.live, p ∉ t.pool.pool_

/-- An argument of `deallocate` that is not in the interior of a slot: it lies outside
the storage range (as `nullptr` does) or it is the address of a slot. -/
def slot_granular (sz base C p : Nat) : Prop :=
  p < base ∨ base + C * sz ≤ p ∨ (p - base) % sz = 0

instance (sz base C p : Nat) : Decidable (slot_granular sz base C p) := by
  unfold slot_granular; infer_instance

/-- A call whose argument, if it has one, is slot-granular. -/
def granular_call (sz base C : Nat) : Call → Prop
  | .allocate => True
  | .deallocate p => slot_granular sz base C p

instance (sz base C : Nat) (c : Call) : Decidable (granular_call sz base C c) := by
  cases c <;> unfold granular_call <;> infer_instance

/-- Every `deallocate` of the sequence has a slot-granular argument. -/
def granular_calls (sz base C : Nat) (ops : List Call) : Prop :=
  ∀ c ∈ ops, granular_call sz base C c

instance (sz base C : Nat) (ops : List Call) : Decidable (granular_calls sz base C ops) := by
  unfold granular_calls; infer_instance

/-- Holds after every sequence of calls whose `deallocate` arguments are slot-granular:
free-list entries and live addresses are slot addresses, and a slot's flag is set exactly
when its address is live. -/
structure Exact (sz base C : Nat) (t : Tracked) : Prop where
  sound : Sound sz base C t
  pool_aligned : ∀ p ∈ t.pool.pool_, (p - base) % sz = 0
  live_slot : ∀ p ∈ t.live, base ≤ p ∧ p < base + C * sz ∧ (p - base) % sz = 0 ∧
    t.pool.allocated_[ptr_index sz base p]? = some true
  occupied_live : ∀ i, i < C → t.pool.allocated_[i]? = some true →
    slot_addr sz base i ∈ t.live
  count : t.live.length + t.pool.pool_.length = C

/-- Number of slots whose occupancy flag is set. -/
def occupied_count (s : arena_pool) : Nat := s.allocated_.count true

/-! ## The rolling pattern of the benchmark (`bench::run_rolling`, pool phase)

The clock is not modelled. A write through a null pointer and an access to `ptrs`
outside its bounds are undefined behaviour in the source and are errors here. -/

theorem ptr_index_eq (sz base p : Nat) (hb : base ≤ p) (hp : p < SIZE_MOD)
    (ha : (p - base) % sz = 0) : ptr_index sz base p = (p - base) / sz := by
  unfold ptr_index
  have h1 : ((p : Int) - (base : Int)) = ((p - base : Nat) : Int) := by omega
  have h3 : (((p - base : Nat) : Int) % (sz : Int)) = 0 := by
    rw [← Int.ofNat_emod, ha]
    rfl
  have h2 : (p - base) / sz < SIZE_MOD :=
    lt_of_le_of_lt (Nat.div_le_self _ _) (by omega)
  simp only [h1, h3, if_true]
  rw [← Int.ofNat_ediv, Int.emod_eq_of_lt (Int.ofNat_nonneg _) (by exact_mod_cast h2)]
  exact Int.toNat_ofNat _

theorem ptr_index_slot (sz base i : Nat) (hsz : 0 < sz) (hp : base + i * sz < SIZE_MOD) :
    ptr_index sz base (slot_addr sz base i) = i := by
  unfold slot_addr
  rw [ptr_index_eq sz base _ (by omega) hp (by simp)]
  simp [Nat.mul_div_cancel _ hsz]

theorem ptr_index_lt (sz base C p : Nat) (hL : Layout sz base C) (hb : base ≤ p)
    (hp : p < base + C * sz) (ha : (p - base) % sz = 0) : ptr_index sz base p < C := by
  obtain ⟨hsz, _, hmax⟩ := hL
  rw [ptr_index_eq sz base p hb (by omega) ha]
  rw [Nat.div_lt_iff_lt_mul hsz]
  omega

/-- The value computed for an in-range address inside a slot whose size is not a power of
two: for `sizeof(T) = 12` and the address 16 bytes after the base it is far outside any
occupancy table. -/
theorem ptr_index_interior_twelve : ptr_index 12 4096 4112 = 12297829382473034412 := by
  rfl

/-- For a slot size that is a power of two an address inside a slot gets the index of
that slot. -/
theorem ptr_index_interior_sixteen :
    ptr_index 16 4096 4100 = 0 ∧ ptr_index 16 4096 4120 = 1 := by
  constructor <;> rfl

/-- The fuel of `two_adic` suffices: it splits `n` into a power of two and an odd number. -/
theorem two_adic_spec (fuel : Nat) :
    ∀ n, 0 < n → n < 2 ^ fuel →
      n = 2 ^ two_adic fuel n * (n / 2 ^ two_adic fuel n) ∧
      (n / 2 ^ two_adic fuel n) % 2 = 1 := by
  induction fuel with
  | zero =>
    intro n h0 h1
    simp at h1
    omega
  | succ f ih =>
    intro n h0 h1
    by_cases he : n % 2 = 0
    · have hn : n ≠ 0 := by omega
      have hh : 0 < n / 2 := by omega
      have hl : n / 2 < 2 ^ f := by
        rw [pow_succ] at h1
        omega
      obtain ⟨e1, e2⟩ := ih (n / 2) hh hl
      simp only [two_adic, he, hn, ne_eq, not_false_eq_true, and_self, if_true]
      have hdiv : n / 2 ^ (1 + two_adic f (n / 2)) = n / 2 / 2 ^ two_adic f (n / 2) := by
        rw [pow_add, pow_one, Nat.div_div_eq_div_mul]
      rw [hdiv]
      refine ⟨?_, e2⟩
      rw [pow_add, pow_one, mul_assoc, ← e1]
      omega
    · simp only [two_adic, he, false_and, if_false, pow_zero, Nat.div_one, one_mul, true_and]
      omega

/-- The Newton step, read modulo `2 ^ 64`. -/
theorem newton_step_cast (m x : Nat) :
    ((newton_step m x : Nat) : ZMod SIZE_MOD) =
      (x : ZMod SIZE_MOD) * (2 - (m : ZMod SIZE_MOD) * (x : ZMod SIZE_MOD)) := by
  unfold newton_step
  have hle : (m * x) % SIZE_MOD ≤ 2 + SIZE_MOD := by
    have : (m * x) % SIZE_MOD < SIZE_MOD := Nat.mod_lt _ (by unfold SIZE_MOD; positivity)
    omega
  rw [ZMod.natCast_mod, Nat.cast_mul, ZMod.natCast_mod, Nat.cast_sub hle, ZMod.natCast_mod]
  simp

/-- The constant `odd_inverse m` is the inverse of an odd `m` modulo `2 ^ 64`. -/
theorem odd_inverse_spec (m : Nat) (hm : m % 2 = 1) :
    (m * odd_inverse m) % SIZE_MOD = 1 := by
  have key : ((m * odd_inverse m : Nat) : ZMod SIZE_MOD) = 1 := by
    have h8 : ∃ c : ZMod SIZE_MOD, 1 - (m : ZMod SIZE_MOD) * (m : ZMod SIZE_MOD) = 8 * c := by
      obtain ⟨j, hj⟩ : ∃ j, m = 2 * j + 1 := ⟨m / 2, by omega⟩
      obtain ⟨i, hi⟩ : ∃ i, j * (j + 1) = 2 * i := by
        rcases Nat.even_mul_succ_self j with ⟨i, hi⟩
        exact ⟨i, by omega⟩
      refine ⟨-(i : ZMod SIZE_MOD), ?_⟩
      have : (j : ZMod SIZE_MOD) * ((j : ZMod SIZE_MOD) + 1) = 2 * (i : ZMod SIZE_MOD) := by
        exact_mod_cast congrArg (Nat.cast : Nat → ZMod SIZE_MOD) hi
      subst hj
      push_cast
      linear_combination (-4 : ZMod SIZE_MOD) * this
    obtain ⟨c, hc⟩ := h8
    have hz : (8 : ZMod SIZE_MOD) ^ 32 = 0 := by
      have : (8 : ZMod SIZE_MOD) ^ 32 = ((2 ^ 64 : Nat) : ZMod SIZE_MOD) * 2 ^ 32 := by
        push_cast
        norm_num
      rw [this]
      have : ((2 ^ 64 : Nat) : ZMod SIZE_MOD) = 0 := ZMod.natCast_self _
      rw [this, zero_mul]
    have hstep : ∀ x : Nat, 1 - (m : ZMod SIZE_MOD) * ((newton_step m x : Nat) : ZMod SIZE_MOD) =
        (1 - (m : ZMod SIZE_MOD) * (x : ZMod SIZE_MOD)) ^ 2 := by
      intro x
      rw [newton_step_cast]
      ring
    have h0 : 1 - (m : ZMod SIZE_MOD) * ((m % SIZE_MOD : Nat) : ZMod SIZE_MOD) = 8 * c := by
      rw [ZMod.natCast_mod]
      exact hc
    have h5 : 1 - (m : ZMod SIZE_MOD) * ((odd_inverse m : Nat) : ZMod SIZE_MOD) = 0 := by
      unfold odd_inverse
      simp only [Function.iterate_succ, Function.iterate_zero, Function.comp, id]
      rw [hstep, hstep, hstep, hstep, hstep, h0]
      have : ((((((8 : ZMod SIZE_MOD) * c) ^ 2) ^ 2) ^ 2) ^ 2) ^ 2 = 8 ^ 32 * c ^ 32 := by ring
      rw [this, hz, zero_mul]
    push_cast
    linear_combination -h5
  have h1 : ((1 : Nat) : ZMod SIZE_MOD) = 1 := by simp
  rw [← h1, ZMod.natCast_eq_natCast_iff'] at key
  rw [key]
  unfold SIZE_MOD
  norm_num
/-- The value of `ptr_index` is in every case the one the compiled exact division
computes: shift, then multiply by the inverse of the odd part. -/
theorem ptr_index_compiled (sz base ptr : Nat) (hsz : 0 < sz) (hlt : sz < SIZE_MOD) :
    ptr_index sz base ptr =
      Int.toNat (((((ptr : Int) - (base : Int)) / (2 ^ two_adic 64 sz : Int)) *
        (odd_inverse (sz / 2 ^ two_adic 64 sz) : Int)) % (SIZE_MOD : Int)) := by
  unfold ptr_index
  by_cases h : ((ptr : Int) - (base : Int)) % (sz : Int) = 0
  · simp only [h, if_true]
    obtain ⟨q, hq⟩ := Int.dvd_of_emod_eq_zero h
    obtain ⟨e1, e2⟩ := two_adic_spec 64 sz hsz (by unfold SIZE_MOD at hlt; exact hlt)
    have hinv := odd_inverse_spec (sz / 2 ^ two_adic 64 sz) e2
    generalize two_adic 64 sz = k at e1 e2 hinv ⊢
    generalize hm : sz / 2 ^ k = m at e1 e2 hinv ⊢
    have hszne : (sz : Int) ≠ 0 := by exact_mod_cast hsz.ne'
    have hpow : ((2 : Int) ^ k) ≠ 0 := by positivity
    have hszI : (sz : Int) = 2 ^ k * (m : Int) := by exact_mod_cast e1
    have hinvI : ((m : Int) * (odd_inverse m : Int)) % (SIZE_MOD : Int) = 1 := by
      exact_mod_cast congrArg (Nat.cast : Nat → Int) hinv
    rw [hq, Int.mul_ediv_cancel_left _ hszne]
    have hd : (sz : Int) * q = 2 ^ k * ((m : Int) * q) := by rw [hszI]; ring
    rw [hd, Int.mul_ediv_cancel_left _ hpow]
    have : (m : Int) * q * (odd_inverse m : Int) = q * ((m : Int) * (odd_inverse m : Int)) := by
      ring
    rw [this, Int.mul_emod, hinvI, mul_one, Int.emod_emod_of_dvd _ (dvd_refl _)]
  · simp only [h, if_false]

theorem slot_addr_lt (sz base C i : Nat) (hL : Layout sz base C) (hi : i < C) :
    base ≤ slot_addr sz base i ∧ slot_addr sz base i < base + C * sz := by
  obtain ⟨hsz, _, _⟩ := hL
  unfold slot_addr
  have : i * sz < C * sz := Nat.mul_lt_mul_of_pos_right hi hsz
  omega

/-! ## The two member functions, path by path -/

theorem allocate_nil (s : arena_pool) (h : s.pool_ = []) : allocate s = .ok (0, s) := by
  simp [allocate, empty, h]

theorem allocate_concat (s : arena_pool) (l : List Nat) (p : Nat) (h : s.pool_ = l ++ [p])
    (hi : allocated_index s p < s.allocated_.length) :
    allocate s = .ok (p, { s with pool_ := l,
                                  allocated_ := s.allocated_.set (allocated_index s p) true }) := by
  have hi2 : ptr_index s.sizeof_T s.arena_ p < s.allocated_.length := hi
  simp [allocate, empty, h, set_allocated, allocated_index, hi2]

theorem deallocate_null (s : arena_pool) : deallocate s 0 = .ok (.NullRelease, s) := by
  simp [deallocate]

theorem deallocate_foreign (s : arena_pool) (p : Nat) (h0 : p ≠ 0)
    (h : p < s.arena_ ∨ s.arena_ + s.capacity_ * s.sizeof_T ≤ p) :
    deallocate s p = .ok (.ForeignPointer, s) := by
  simp [deallocate, h0, h]

theorem deallocate_free (s : arena_pool) (p : Nat) (h0 : p ≠ 0) (hb : s.arena_ ≤ p)
    (hp : p < s.arena_ + s.capacity_ * s.sizeof_T)
    (hf : s.allocated_[allocated_index s p]? = some false) :
    deallocate s p = .ok (.DoubleRelease, s) := by
  have h : ¬ (p < s.arena_ ∨ s.arena_ + s.capacity_ * s.sizeof_T ≤ p) := by omega
  simp [deallocate, h0, h, get_allocated, hf]

theorem deallocate_occupied (s : arena_pool) (p : Nat) (h0 : p ≠ 0) (hb : s.arena_ ≤ p)
    (hp : p < s.arena_ + s.capacity_ * s.sizeof_T)
    (hf : s.allocated_[allocated_index s p]? = some true) :
    deallocate s p = .ok (.released,
      { s with pool_ := s.pool_ ++ [p],
               allocated_ := s.allocated_.set (allocated_index s p) false }) := by
  have h : ¬ (p < s.arena_ ∨ s.arena_ + s.capacity_ * s.sizeof_T ≤ p) := by omega
  have hi : allocated_index s p < s.allocated_.length := by
    by_contra hc
    rw [List.getElem?_eq_none (by omega)] at hf
    cases hf
  simp [deallocate, h0, h, get_allocated, hf, set_allocated, hi]

theorem deallocate_fault (s : arena_pool) (p : Nat) (h0 : p ≠ 0) (hb : s.arena_ ≤ p)
    (hp : p < s.arena_ + s.capacity_ * s.sizeof_T)
    (hf : s.allocated_[allocated_index s p]? = none) :
    deallocate s p = .error .out_of_range := by
  have h : ¬ (p < s.arena_ ∨ s.arena_ + s.capacity_ * s.sizeof_T ≤ p) := by omega
  simp [deallocate, h0, h, get_allocated, hf]

/-! ## Preservation of the invariants -/

theorem consistent_construct (sz base C : Nat) (hL : Layout sz base C) :
    Consistent sz base C (construct sz base C) := by
  have hidx : (List.range C).map (ptr_index sz base ∘ slot_addr sz base) = List.range C := by
    conv_rhs => rw [← List.map_id (List.range C)]
    apply List.map_congr_left
    intro i hi
    have := slot_addr_lt sz base C i hL (List.mem_range.mp hi)
    have hmax := hL.2.2
    simp only [Function.comp, id]
    exact ptr_index_slot sz base i hL.1 (by unfold slot_addr at this; omega)
  refine ⟨rfl, rfl, rfl, by simp [construct], ?_, ?_, ?_, ?_⟩
  · intro p hp
    simp only [construct, List.mem_map, List.mem_range] at hp
    obtain ⟨i, hi, rfl⟩ := hp
    exact slot_addr_lt sz base C i hL hi
  · intro p hp
    simp only [construct, List.mem_map, List.mem_range] at hp
    obtain ⟨i, hi, rfl⟩ := hp
    have := slot_addr_lt sz base C i hL hi
    have hmax := hL.2.2
    rw [ptr_index_slot sz base i hL.1 (by unfold slot_addr at this; omega)]
    exact hi
  · simp only [construct, List.map_map, hidx]
    exact List.nodup_range C
  · intro i hi
    simp only [construct, List.map_map, hidx, List.mem_range]
    simp [List.getElem?_replicate, hi]

theorem consistent_length_le (sz base C : Nat) (s : arena_pool) (_hL : Layout sz base C)
    (h : Consistent sz base C s) : s.pool_.length ≤ C := by
  have h1 : (s.pool_.map (ptr_index sz base)).toFinset ⊆ Finset.range C := by
    intro i hi
    simp only [List.mem_toFinset, List.mem_map] at hi
    obtain ⟨p, hp, rfl⟩ := hi
    exact Finset.mem_range.mpr (h.index_lt p hp)
  have h2 := Finset.card_le_card h1
  rw [List.toFinset_card_of_nodup h.nodup] at h2
  simpa using h2

theorem consistent_allocated (sz base C : Nat) (s : arena_pool) (l : List Nat) (p : Nat)
    (h : Consistent sz base C s) (hp : s.pool_ = l ++ [p]) :
    Consistent sz base C
      { s with pool_ := l, allocated_ := s.allocated_.set (allocated_index s p) true } := by
  obtain ⟨h1, h2, h3, h4, h5, h5i, h6, h7⟩ := h
  rw [hp] at h5 h5i h6 h7
  have hidx : allocated_index s p = ptr_index sz base p := by
    simp [allocated_index, h1, h3]
  rw [List.map_append, List.nodup_append] at h6
  refine ⟨h1, h2, h3, by simpa using h4, ?_, ?_, h6.1, ?_⟩
  · intro q hq
    exact h5 q (by simp [hq])
  · intro q hq
    exact h5i q (by simp [hq])
  · intro i hi
    have h7i := h7 i hi
    simp only [hidx, List.getElem?_set]
    by_cases hip : ptr_index sz base p = i
    · subst hip
      simp only [if_true]
      constructor
      · intro hc
        split at hc <;> simp at hc
      · intro hc
        exact absurd (by simp) (h6.2.2 hc)
    · simp only [hip, if_false]
      rw [h7i]
      simp only [List.map_append, List.mem_append, List.map_cons, List.map_nil,
        List.mem_singleton]
      constructor
      · rintro (hc | hc)
        · exact hc
        · exact absurd hc.symm hip
      · intro hc
        exact Or.inl hc

theorem consistent_released (sz base C : Nat) (s : arena_pool) (p : Nat)
    (h : Consistent sz base C s) (hb : base ≤ p) (hp : p < base + C * sz)
    (hf : s.allocated_[allocated_index s p]? = some true) :
    Consistent sz base C
      { s with pool_ := s.pool_ ++ [p],
               allocated_ := s.allocated_.set (allocated_index s p) false } := by
  obtain ⟨h1, h2, h3, h4, h5, h5i, h6, h7⟩ := h
  have hidx : allocated_index s p = ptr_index sz base p := by
    simp [allocated_index, h1, h3]
  rw [hidx] at hf
  have hlt : ptr_index sz base p < C := by
    by_contra hc
    rw [List.getElem?_eq_none (by omega)] at hf
    cases hf
  have hnot : ptr_index sz base p ∉ s.pool_.map (ptr_index sz base) := by
    intro hc
    rw [← h7 _ hlt, hf] at hc
    cases hc
  refine ⟨h1, h2, h3, by simpa using h4, ?_, ?_, ?_, ?_⟩
  · intro q hq
    simp only [List.mem_append, List.mem_singleton] at hq
    rcases hq with hq | rfl
    · exact h5 q hq
    · exact ⟨hb, hp⟩
  · intro q hq
    simp only [List.mem_append, List.mem_singleton] at hq
    rcases hq with hq | rfl
    · exact h5i q hq
    · exact hlt
  · simp only [List.map_append, List.map_cons, List.map_nil]
    rw [List.nodup_append]
    refine ⟨h6, by simp, ?_⟩
    intro a ha hb2
    simp only [List.mem_singleton] at hb2
    subst hb2
    exact hnot ha
  · intro i hi
    simp only [hidx, List.getElem?_set]
    by_cases hip : ptr_index sz base p = i
    · subst hip
      simp [h4, hlt]
    · simp only [hip, if_false]
      rw [h7 i hi]
      simp only [List.map_append, List.mem_append, List.map_cons, List.map_nil,
        List.mem_singleton]
      constructor
      · intro hc
        exact Or.inl hc
      · rintro (hc | hc)
        · exact hc
        · exact absurd hc.symm hip

theorem layout_capacity_lt (sz base C : Nat) (hL : Layout sz base C) : C < SIZE_MOD := by
  obtain ⟨hsz, _, hmax⟩ := hL
  have : C ≤ C * sz := Nat.le_mul_of_pos_right C hsz
  omega

theorem used_add_length (sz base C : Nat) (s : arena_pool) (hL : Layout sz base C)
    (h : Consistent sz base C s) : used s + s.pool_.length = C := by
  have h1 := consistent_length_le sz base C s hL h
  have h2 := layout_capacity_lt sz base C hL
  have h3 := h.h_cap
  unfold used
  rw [h3]
  unfold SIZE_MOD at h2 ⊢
  omega

theorem consistent_pool_nodup (sz base C : Nat) (s : arena_pool)
    (h : Consistent sz base C s) : s.pool_.Nodup :=
  List.Nodup.of_map _ h.nodup

/-- What `allocate()` does on a consistent pool. -/
theorem allocate_spec (sz base C : Nat) (s : arena_pool) (hL : Layout sz base C)
    (h : Consistent sz base C s) :
    (s.pool_ = [] ∧ allocate s = .ok (0, s)) ∨
    (∃ l p, s.pool_ = l ++ [p] ∧ p ≠ 0 ∧
      s.allocated_[allocated_index s p]? = some false ∧
      allocate s = .ok (p, { s with pool_ := l,
                                    allocated_ := s.allocated_.set (allocated_index s p) true }) ∧
      Consistent sz base C
        { s with pool_ := l, allocated_ := s.allocated_.set (allocated_index s p) true }) := by
  rcases List.eq_nil_or_concat s.pool_ with hnil | ⟨l, p, hp⟩
  · exact Or.inl ⟨hnil, allocate_nil s hnil⟩
  · right
    rw [List.concat_eq_append] at hp
    have hr := h.in_range p (by simp [hp])
    have hidx : allocated_index s p = ptr_index sz base p := by
      simp [allocated_index, h.h_sz, h.h_base]
    have hlt := h.index_lt p (by simp [hp])
    have hflag : s.allocated_[allocated_index s p]? = some false := by
      rw [hidx, h.flags _ hlt]
      exact List.mem_map_of_mem _ (by simp [hp])
    refine ⟨l, p, hp, ?_, hflag, ?_, consistent_allocated sz base C s l p h hp⟩
    · have := hL.2.1
      omega
    · exact allocate_concat s l p hp (by rw [hidx, h.table]; exact hlt)

/-- What `deallocate(p)` does on a consistent pool: the three rejections, the release, and
the access outside the occupancy table when the index computed for an in-range address
is not below the capacity. -/
theorem deallocate_spec (sz base C : Nat) (s : arena_pool) (p : Nat) (_hL : Layout sz base C)
    (h : Consistent sz base C s) :
    (p = 0 ∧ deallocate s p = .ok (.NullRelease, s)) ∨
    (p ≠ 0 ∧ (p < base ∨ base + C * sz ≤ p) ∧ deallocate s p = .ok (.ForeignPointer, s)) ∨
    (p ≠ 0 ∧ base ≤ p ∧ p < base + C * sz ∧
      s.allocated_[ptr_index sz base p]? = some false ∧
      deallocate s p = .ok (.DoubleRelease, s)) ∨
    (p ≠ 0 ∧ base ≤ p ∧ p < base + C * sz ∧
      s.allocated_[ptr_index sz base p]? = some true ∧
      deallocate s p = .ok (.released,
        { s with pool_ := s.pool_ ++ [p],
                 allocated_ := s.allocated_.set (allocated_index s p) false }) ∧
      Consistent sz base C
        { s with pool_ := s.pool_ ++ [p],
                 allocated_ := s.allocated_.set (allocated_index s p) false }) ∨
    (p ≠ 0 ∧ base ≤ p ∧ p < base + C * sz ∧ C ≤ ptr_index sz base p ∧
      deallocate s p = .error .out_of_range) := by
  have hidx : allocated_index s p = ptr_index sz base p := by
    simp [allocated_index, h.h_sz, h.h_base]
  have e1 := h.h_sz
  have e2 := h.h_cap
  have e3 := h.h_base
  by_cases h0 : p = 0
  · subst h0
    exact Or.inl ⟨rfl, deallocate_null s⟩
  by_cases hr : p < base ∨ base + C * sz ≤ p
  · exact Or.inr (Or.inl ⟨h0, hr, deallocate_foreign s p h0 (by rw [e1, e2, e3]; exact hr)⟩)
  have hb : base ≤ p := by omega
  have hp : p < base + C * sz := by omega
  by_cases hlt : ptr_index sz base p < C
  · have hsome : ∃ b, s.allocated_[ptr_index sz base p]? = some b := by
      rw [List.getElem?_eq_getElem (by rw [h.table]; exact hlt)]
      exact ⟨_, rfl⟩
    obtain ⟨b, hbv⟩ := hsome
    cases b with
    | false =>
      exact Or.inr (Or.inr (Or.inl ⟨h0, hb, hp, hbv,
        deallocate_free s p h0 (by omega) (by rw [e1, e2, e3]; exact hp)
          (by rw [hidx]; exact hbv)⟩))
    | true =>
      exact Or.inr (Or.inr (Or.inr (Or.inl ⟨h0, hb, hp, hbv,
        deallocate_occupied s p h0 (by omega) (by rw [e1, e2, e3]; exact hp)
          (by rw [hidx]; exact hbv),
        consistent_released sz base C s p h hb hp (by rw [hidx]; exact hbv)⟩)))
  · refine Or.inr (Or.inr (Or.inr (Or.inr ⟨h0, hb, hp, by omega, ?_⟩)))
    refine deallocate_fault s p h0 (by omega) (by rw [e1, e2, e3]; exact hp) ?_
    rw [hidx, List.getElem?_eq_none (by rw [h.table]; omega)]

theorem sound_fresh (sz base C : Nat) (hL : Layout sz base C) :
    Sound sz base C (fresh sz base C) :=
  ⟨consistent_construct sz base C hL, List.nodup_nil, by simp [fresh]⟩

/-- A step that returns keeps the invariant of tracked runs. -/
theorem step_sound (sz base C : Nat) (t t1 : Tracked) (c : Call) (hL : Layout sz base C)
    (h : Sound sz base C t) (hstep : step t c = .ok t1) : Sound sz base C t1 := by
  obtain ⟨hc, hn, hd⟩ := h
  cases c with
  | allocate =>
    rcases allocate_spec sz base C t.pool hL hc with ⟨_, ha⟩ | ⟨l, p, hp, h0, _, ha, hc1⟩
    · have e : t1 = ⟨t.pool, t.live⟩ := by
        simp [step, ha] at hstep; exact hstep.symm
      subst e
      exact ⟨hc, hn, hd⟩
    · have e : t1 = ⟨{ t.pool with
          pool_ := l
          allocated_ := t.pool.allocated_.set (allocated_index t.pool p) true }, p :: t.live⟩ := by
        simp [step, ha, h0] at hstep; exact hstep.symm
      subst e
      refine ⟨hc1, ?_, ?_⟩
      · refine List.nodup_cons.mpr ⟨?_, hn⟩
        intro hm
        exact hd p hm (by simp [hp])
      · intro q hq
        have hnd := consistent_pool_nodup sz base C t.pool hc
        rw [hp, List.nodup_append] at hnd
        simp only [List.mem_cons] at hq
        rcases hq with rfl | hq
        · intro hm
          exact hnd.2.2 hm (by simp)
        · intro hm
          exact hd q hq (by simp [hp, hm])
  | deallocate p =>
    rcases deallocate_spec sz base C t.pool p hL hc with
      ⟨_, hx⟩ | ⟨_, _, hx⟩ | ⟨_, _, _, _, hx⟩ | ⟨_, _, _, _, hx, hc1⟩ | ⟨_, _, _, _, hx⟩
    · have e : t1 = ⟨t.pool, t.live⟩ := by
        simp [step, hx] at hstep; exact hstep.symm
      subst e
      exact ⟨hc, hn, hd⟩
    · have e : t1 = ⟨t.pool, t.live⟩ := by
        simp [step, hx] at hstep; exact hstep.symm
      subst e
      exact ⟨hc, hn, hd⟩
    · have e : t1 = ⟨t.pool, t.live⟩ := by
        simp [step, hx] at hstep; exact hstep.symm
      subst e
      exact ⟨hc, hn, hd⟩
    · have e : t1 = ⟨{ t.pool with
          pool_ := t.pool.pool_ ++ [p]
          allocated_ := t.pool.allocated_.set (allocated_index t.pool p) false },
          t.live.filter (fun q => q != p)⟩ := by
        simp [step, hx] at hstep; exact hstep.symm
      subst e
      refine ⟨hc1, hn.filter _, ?_⟩
      intro q hq
      simp only [List.mem_filter, bne_iff_ne, ne_eq] at hq
      simp only [List.mem_append, List.mem_singleton, not_or]
      exact ⟨hd q hq.1, hq.2⟩
    · simp [step, hx] at hstep

/-- A step returns when its argument, if it has one, is slot-granular. -/
theorem step_returns (sz base C : Nat) (t : Tracked) (c : Call) (hL : Layout sz base C)
    (h : Sound sz base C t) (hg : granular_call sz base C c) : ∃ t1, step t c = .ok t1 := by
  have hc := h.pool_ok
  cases c with
  | allocate =>
    rcases allocate_spec sz base C t.pool hL hc with ⟨_, ha⟩ | ⟨l, p, hp, h0, _, ha, _⟩
    · simp [step, ha]
    · simp [step, ha]
  | deallocate p =>
    rcases deallocate_spec sz base C t.pool p hL hc with
      ⟨_, hx⟩ | ⟨_, _, hx⟩ | ⟨_, _, _, _, hx⟩ | ⟨_, _, _, _, hx, _⟩ | ⟨_, hb, hp, hge, _⟩
    · simp [step, hx]
    · simp [step, hx]
    · simp [step, hx]
    · simp [step, hx]
    · have hal : (p - base) % sz = 0 := by
        rcases hg with hg | hg | hg
        · omega
        · omega
        · exact hg
      have := ptr_index_lt sz base C p hL hb hp hal
      omega

/-- A run that returns ends in a state that satisfies the invariant of tracked runs. -/
theorem run_sound (sz base C : Nat) (hL : Layout sz base C) (ops : List Call) :
    ∀ t t1, Sound sz base C t → run t ops = .ok t1 → Sound sz base C t1 := by
  induction ops with
  | nil =>
    intro t t1 h hrun
    simp only [run, Except.ok.injEq] at hrun
    subst hrun
    exact h
  | cons c cs ih =>
    intro t t1 h hrun
    simp only [run] at hrun
    cases hstep : step t c with
    | error e => rw [hstep] at hrun; cases hrun
    | ok t2 =>
      rw [hstep] at hrun
      exact ih t2 t1 (step_sound sz base C t t2 c hL h hstep) hrun

theorem aligned_eq_slot (sz base C p : Nat) (hL : Layout sz base C) (hb : base ≤ p)
    (hp : p < base + C * sz) (ha : (p - base) % sz = 0) :
    p = slot_addr sz base (ptr_index sz base p) := by
  have hmax := hL.2.2
  rw [ptr_index_eq sz base p hb (by omega) ha]
  unfold slot_addr
  rw [Nat.div_mul_cancel (Nat.dvd_of_mod_eq_zero ha)]
  omega

theorem filter_ne_length (l : List Nat) (p : Nat) (hn : l.Nodup) (hp : p ∈ l) :
    (l.filter (fun q => q != p)).length + 1 = l.length := by
  rw [← List.Nodup.erase_eq_filter hn p, List.length_erase_of_mem hp]
  have : 0 < l.length := List.length_pos_of_mem hp
  omega

theorem exact_fresh (sz base C : Nat) (hL : Layout sz base C) :
    Exact sz base C (fresh sz base C) := by
  refine ⟨sound_fresh sz base C hL, ?_, by simp [fresh], ?_, by simp [fresh, construct]⟩
  · intro p hp
    simp only [fresh, construct, List.mem_map, List.mem_range] at hp
    obtain ⟨i, _, rfl⟩ := hp
    simp [slot_addr]
  · intro i hi hf
    simp [fresh, construct, List.getElem?_replicate, hi] at hf

theorem step_exact (sz base C : Nat) (t : Tracked) (c : Call) (hL : Layout sz base C)
    (h : Exact sz base C t) (hg : granular_call sz base C c) :
    ∃ t1, step t c = .ok t1 ∧ Exact sz base C t1 := by
  obtain ⟨t1, hstep⟩ := step_returns sz base C t c hL h.sound hg
  have hs1 := step_sound sz base C t t1 c hL h.sound hstep
  refine ⟨t1, hstep, ?_⟩
  obtain ⟨hs, hpa, hls, hol, hcnt⟩ := h
  have hc := hs.pool_ok
  have hidx : ∀ q, allocated_index t.pool q = ptr_index sz base q := by
    intro q; simp [allocated_index, hc.h_sz, hc.h_base]
  cases c with
  | allocate =>
    rcases allocate_spec sz base C t.pool hL hc with ⟨_, ha⟩ | ⟨l, p, hp, h0, _, ha, _⟩
    · have e : t1 = ⟨t.pool, t.live⟩ := by
        simp [step, ha] at hstep; exact hstep.symm
      subst e
      exact ⟨hs1, hpa, hls, hol, hcnt⟩
    · have e : t1 = ⟨{ t.pool with
          pool_ := l
          allocated_ := t.pool.allocated_.set (allocated_index t.pool p) true }, p :: t.live⟩ := by
        simp [step, ha, h0] at hstep; exact hstep.symm
      subst e
      have hpr := hc.in_range p (by simp [hp])
      have hpal := hpa p (by simp [hp])
      have hplt := ptr_index_lt sz base C p hL hpr.1 hpr.2 hpal
      refine ⟨hs1, ?_, ?_, ?_, by simp [hp] at hcnt ⊢; omega⟩
      · intro q hq
        exact hpa q (by simp [hp]; exact Or.inl hq)
      · intro q hq
        simp only [List.mem_cons] at hq
        simp only [hidx, List.getElem?_set]
        rcases hq with rfl | hq
        · refine ⟨hpr.1, hpr.2, hpal, ?_⟩
          simp [hc.table, hplt]
        · obtain ⟨a, b, c2, d⟩ := hls q hq
          refine ⟨a, b, c2, ?_⟩
          by_cases he : ptr_index sz base p = ptr_index sz base q
          · simp [he, hc.table, ptr_index_lt sz base C q hL a b c2]
          · simp [he, d]
      · intro i hi hf
        simp only [hidx, List.getElem?_set] at hf
        by_cases he : ptr_index sz base p = i
        · subst he
          rw [← aligned_eq_slot sz base C p hL hpr.1 hpr.2 hpal]
          simp
        · simp only [he, if_false] at hf
          exact List.mem_cons_of_mem _ (hol i hi hf)
  | deallocate p =>
    rcases deallocate_spec sz base C t.pool p hL hc with
      ⟨_, hx⟩ | ⟨_, _, hx⟩ | ⟨_, _, _, _, hx⟩ | ⟨_, hb, hp, hf, hx, _⟩ | ⟨_, _, _, _, hx⟩
    rotate_left 4
    · simp [step, hx] at hstep
    · have e : t1 = ⟨t.pool, t.live⟩ := by
        simp [step, hx] at hstep; exact hstep.symm
      subst e
      exact ⟨hs1, hpa, hls, hol, hcnt⟩
    · have e : t1 = ⟨t.pool, t.live⟩ := by
        simp [step, hx] at hstep; exact hstep.symm
      subst e
      exact ⟨hs1, hpa, hls, hol, hcnt⟩
    · have e : t1 = ⟨t.pool, t.live⟩ := by
        simp [step, hx] at hstep; exact hstep.symm
      subst e
      exact ⟨hs1, hpa, hls, hol, hcnt⟩
    · have e : t1 = ⟨{ t.pool with
          pool_ := t.pool.pool_ ++ [p]
          allocated_ := t.pool.allocated_.set (allocated_index t.pool p) false },
          t.live.filter (fun q => q != p)⟩ := by
        simp [step, hx] at hstep; exact hstep.symm
      subst e
      have hpal : (p - base) % sz = 0 := by
        rcases hg with hg | hg | hg
        · omega
        · omega
        · exact hg
      have hpe := aligned_eq_slot sz base C p hL hb hp hpal
      have hpl : p ∈ t.live := by
        rw [hpe]
        exact hol _ (ptr_index_lt sz base C p hL hb hp hpal) hf
      have hfl := filter_ne_length t.live p hs.live_nodup hpl
      refine ⟨hs1, ?_, ?_, ?_, by simp only [List.length_append, List.length_singleton]; omega⟩
      · intro q hq
        simp only [List.mem_append, List.mem_singleton] at hq
        rcases hq with hq | rfl
        · exact hpa q hq
        · exact hpal
      · intro q hq
        simp only [List.mem_filter, bne_iff_ne, ne_eq] at hq
        obtain ⟨a, b, c2, d⟩ := hls q hq.1
        refine ⟨a, b, c2, ?_⟩
        have he : ptr_index sz base p ≠ ptr_index sz base q := by
          intro he
          apply hq.2
          rw [aligned_eq_slot sz base C q hL a b c2, hpe, he]
        simp only [hidx, List.getElem?_set, he, if_false]
        exact d
      · intro i hi hf2
        simp only [hidx, List.getElem?_set] at hf2
        by_cases he : ptr_index sz base p = i
        · subst he
          simp only [if_true] at hf2
          split at hf2 <;> simp at hf2
        · simp only [he, if_false] at hf2
          simp only [List.mem_filter, bne_iff_ne, ne_eq]
          refine ⟨hol i hi hf2, ?_⟩
          intro hc2
          apply he
          rw [← hc2]
          exact ptr_index_slot sz base i hL.1
            (by have := slot_addr_lt sz base C i hL hi
                have := hL.2.2
                unfold slot_addr at *
                omega)

theorem run_exact (sz base C : Nat) (hL : Layout sz base C) (ops : List Call) :
    ∀ t, Exact sz base C t → granular_calls sz base C ops →
      ∃ t1, run t ops = .ok t1 ∧ Exact sz base C t1 := by
  induction ops with
  | nil => intro t h _; exact ⟨t, rfl, h⟩
  | cons c cs ih =>
    intro t h hg
    obtain ⟨t1, h1, hs1⟩ := step_exact sz base C t c hL h (hg c (by simp))
    obtain ⟨t2, h2, hs2⟩ := ih t1 hs1 (fun d hd => hg d (by simp [hd]))
    exact ⟨t2, by simp [run, h1, h2], hs2⟩

/-- The consecutive `allocate()` calls of `allocate_n` take the last `k` entries of the
free-list, last entry first. -/
theorem allocate_n_spec (sz base C : Nat) (hL : Layout sz base C) (k : Nat) :
    ∀ s, Consistent sz base C s → k ≤ s.pool_.length →
      ∃ ps s1, allocate_n s k = .ok (ps, s1) ∧ Consistent sz base C s1 ∧
        s.pool_ = s1.pool_ ++ ps.reverse ∧ ps.length = k ∧ ∀ p ∈ ps, p ≠ 0 := by
  induction k with
  | zero =>
    intro s h _
    exact ⟨[], s, rfl, h, by simp, rfl, by simp⟩
  | succ k ih =>
    intro s h hk
    rcases allocate_spec sz base C s hL h with ⟨hnil, _⟩ | ⟨l, p, hp, h0, _, ha, hc1⟩
    · rw [hnil] at hk
      simp at hk
    · have hk1 : k ≤ l.length := by
        rw [hp] at hk
        simp at hk
        exact hk
      obtain ⟨ps, s1, hn, hc2, hpool, hlen, hnz⟩ := ih _ hc1 hk1
      refine ⟨p :: ps, s1, by simp [allocate_n, ha, hn], hc2, ?_, by simp [hlen], ?_⟩
      · rw [hp]
        simp only at hpool
        rw [hpool]
        simp
      · intro q hq
        simp only [List.mem_cons] at hq
        rcases hq with rfl | hq
        · exact h0
        · exact hnz q hq

theorem sound_of_run (sz base C : Nat) (ops : List Call) (t : Tracked)
    (hL : Layout sz base C) (hrun : run (fresh sz base C) ops = .ok t) :
    Sound sz base C t := by
  exact run_sound sz base C hL ops _ t (sound_fresh sz base C hL) hrun

theorem consistent_flag_index_lt (sz base C : Nat) (s : arena_pool) (i : Nat) (b : Bool)
    (h : Consistent sz base C s) (hf : s.allocated_[i]? = some b) : i < C := by
  by_contra hc
  rw [List.getElem?_eq_none (by rw [h.table]; omega)] at hf
  cases hf

theorem exact_of_run (sz base C : Nat) (ops : List Call) (t : Tracked)
    (hL : Layout sz base C) (hg : granular_calls sz base C ops)
    (hrun : run (fresh sz base C) ops = .ok t) : Exact sz base C t := by
  obtain ⟨t1, h1, hs⟩ := run_exact sz base C hL ops _ (exact_fresh sz base C hL) hg
  rw [hrun] at h1
  cases h1
  exact hs

/-- Releasing an in-range address whose flag is set: the call succeeds, `used()` drops by
one, and the address is the new back of the free-list, so the next `allocate()` returns
it. -/
theorem release_occupied (sz base C : Nat) (s : arena_pool) (p : Nat) (hL : Layout sz base C)
    (h : Consistent sz base C s) (hb : base ≤ p) (hp : p < base + C * sz)
    (hf : s.allocated_[ptr_index sz base p]? = some true) :
    ∃ s1, deallocate s p = .ok (.released, s1) ∧ Consistent sz base C s1 ∧
      used s1 + 1 = used s ∧ s1.pool_ = s.pool_ ++ [p] ∧
      s1.allocated_[ptr_index sz base p]? = some false ∧
      ∃ s2, allocate s1 = .ok (p, s2) := by
  have hidx : allocated_index s p = ptr_index sz base p := by
    simp [allocated_index, h.h_sz, h.h_base]
  have h0 : p ≠ 0 := by have := hL.2.1; omega
  have hlt := consistent_flag_index_lt sz base C s _ _ h hf
  have hf2 : s.allocated_[allocated_index s p]? = some true := by rw [hidx]; exact hf
  have hd := deallocate_occupied s p h0 (by rw [h.h_base]; exact hb)
    (by rw [h.h_base, h.h_cap, h.h_sz]; exact hp) hf2
  have hc1 := consistent_released sz base C s p h hb hp hf2
  have hu := used_add_length sz base C s hL h
  have hu1 := used_add_length sz base C _ hL hc1
  simp only [List.length_append, List.length_singleton] at hu1
  refine ⟨_, hd, hc1, by omega, rfl, ?_, _, allocate_concat _ s.pool_ p rfl ?_⟩
  · simp [hidx, h.table, hlt]
  · simp [allocated_index, h.h_sz, h.h_base, h.table, hlt]

/-- A flag that is clear stays clear, and the pool stays consistent, while only
`deallocate` is called. -/
theorem deallocate_only_keeps_clear (sz base C : Nat) (hL : Layout sz base C) (i : Nat)
    (qs : List Nat) :
    ∀ t t2, Consistent sz base C t.pool → t.pool.allocated_[i]? = some false →
      run t (qs.map Call.deallocate) = .ok t2 →
      Consistent sz base C t2.pool ∧ t2.pool.allocated_[i]? = some false := by
  induction qs with
  | nil =>
    intro t t2 hc hf hrun
    simp [run] at hrun
    subst hrun
    exact ⟨hc, hf⟩
  | cons q qs ih =>
    intro t t2 hc hf hrun
    have hidx : allocated_index t.pool q = ptr_index sz base q := by
      simp [allocated_index, hc.h_sz, hc.h_base]
    rcases deallocate_spec sz base C t.pool q hL hc with
      ⟨_, hx⟩ | ⟨_, _, hx⟩ | ⟨_, _, _, _, hx⟩ | ⟨_, hb, hp, hfq, hx, hc1⟩ | ⟨_, _, _, _, hx⟩
    · simp only [List.map_cons, run, step, hx] at hrun
      exact ih _ t2 hc hf hrun
    · simp only [List.map_cons, run, step, hx] at hrun
      exact ih _ t2 hc hf hrun
    · simp only [List.map_cons, run, step, hx] at hrun
      exact ih _ t2 hc hf hrun
    · simp only [List.map_cons, run, step, hx] at hrun
      refine ih _ t2 hc1 ?_ hrun
      simp only [hidx, List.getElem?_set]
      by_cases he : ptr_index sz base q = i
      · subst he
        simp [hc.table, consistent_flag_index_lt sz base C t.pool _ _ hc hfq]
      · simp [he, hf]
    · simp only [List.map_cons, run, step, hx] at hrun
      cases hrun

theorem exact_live_card (sz base C : Nat) (t : Tracked) (hL : Layout sz base C)
    (h : Exact sz base C t) : t.live.toFinset.card = used t.pool := by
  rw [List.toFinset_card_of_nodup h.sound.live_nodup]
  have := used_add_length sz base C t.pool hL h.sound.pool_ok
  have := h.count
  omega

theorem set_set_restore (l : List Bool) :
    ∀ i, l[i]? = some false → (l.set i true).set i false = l := by
  induction l with
  | nil => intro i h; simp at h
  | cons b bs ih =>
    intro i h
    cases i with
    | zero =>
      simp at h
      simp [h]
    | succ i =>
      simp at h
      simp [ih i h]

/-- On a consistent pool with a free slot, `allocate()` followed by `deallocate` of its
result gives back the state before the two calls. -/
theorem allocate_deallocate_restores (sz base C : Nat) (s : arena_pool)
    (hL : Layout sz base C) (h : Consistent sz base C s) (hne : s.pool_ ≠ []) :
    ∃ p s1, allocate s = .ok (p, s1) ∧ p ≠ 0 ∧ Consistent sz base C s1 ∧
      s.pool_ = s1.pool_ ++ [p] ∧ deallocate s1 p = .ok (.released, s) := by
  rcases allocate_spec sz base C s hL h with ⟨hnil, _⟩ | ⟨l, p, hp, h0, hf, ha, hc1⟩
  · exact absurd hnil hne
  · refine ⟨p, _, ha, h0, hc1, hp, ?_⟩
    have hr := h.in_range p (by simp [hp])
    have hidx : allocated_index s p = ptr_index sz base p := by
      simp [allocated_index, h.h_sz, h.h_base]
    have hlt := h.index_lt p (by simp [hp])
    have hd := deallocate_occupied
      { s with pool_ := l, allocated_ := s.allocated_.set (allocated_index s p) true } p h0
      (by simp only [h.h_base]; exact hr.1)
      (by simp only [h.h_base, h.h_cap, h.h_sz]; exact hr.2)
      (by simp [allocated_index, h.h_sz, h.h_base, h.table, hlt])
    rw [hd]
    have e1 : allocated_index
        { s with pool_ := l, allocated_ := s.allocated_.set (allocated_index s p) true } p =
        allocated_index s p := rfl
    simp only [e1, set_set_restore s.allocated_ _ hf, ← hp]

theorem consistent_flag_some (sz base C : Nat) (s : arena_pool) (i : Nat)
    (h : Consistent sz base C s) (hi : i < C) : ∃ b, s.allocated_[i]? = some b := by
  rw [List.getElem?_eq_getElem (by rw [h.table]; exact hi)]
  exact ⟨_, rfl⟩

/-- On a consistent pool the flag of slot `i` is set exactly when no free-list entry
belongs to slot `i`. -/
theorem consistent_flag_set_iff (sz base C : Nat) (s : arena_pool) (i : Nat)
    (h : Consistent sz base C s) (hi : i < C) :
    s.allocated_[i]? = some true ↔ ∀ p ∈ s.pool_, ptr_index sz base p ≠ i := by
  obtain ⟨b, hb⟩ := consistent_flag_some sz base C s i h hi
  have hf := h.flags i hi
  simp only [List.mem_map] at hf
  constructor
  · intro ht p hp he
    have : s.allocated_[i]? = some false := hf.mpr ⟨p, hp, he⟩
    rw [ht] at this
    cases this
  · intro hall
    cases b with
    | true => exact hb
    | false =>
      obtain ⟨p, hp, he⟩ := hf.mp hb
      exact absurd he (hall p hp)

theorem count_set_true (l : List Bool) :
    ∀ i, l[i]? = some false → (l.set i true).count true = l.count true + 1 := by
  induction l with
  | nil => intro i h; simp at h
  | cons b bs ih =>
    intro i h
    cases i with
    | zero =>
      simp at h
      simp [h]
    | succ i =>
      simp at h
      cases b <;> simp [ih i h]

theorem count_set_false (l : List Bool) :
    ∀ i, l[i]? = some true → (l.set i false).count true + 1 = l.count true := by
  induction l with
  | nil => intro i h; simp at h
  | cons b bs ih =>
    intro i h
    cases i with
    | zero =>
      simp at h
      simp [h]
    | succ i =>
      simp at h
      have := ih i h
      cases b <;> simp <;> omega

/-- The pool component of a step is the result of the member function called. -/
theorem step_pool (t t1 : Tracked) (c : Call) (h : step t c = .ok t1) :
    (c = .allocate → ∃ p, allocate t.pool = .ok (p, t1.pool)) ∧
    (∀ q, c = .deallocate q → ∃ sig, deallocate t.pool q = .ok (sig, t1.pool)) := by
  cases c with
  | allocate =>
    refine ⟨fun _ => ?_, (fun q hq => by cases hq)⟩
    simp only [step] at h
    cases ha : allocate t.pool with
    | error e => rw [ha] at h; cases h
    | ok r =>
      obtain ⟨p, s1⟩ := r
      rw [ha] at h
      simp only [Except.ok.injEq] at h
      subst h
      exact ⟨p, rfl⟩
  | deallocate q0 =>
    refine ⟨(fun hq => by cases hq), fun q hq => ?_⟩
    cases hq
    simp only [step] at h
    cases hd : deallocate t.pool q0 with
    | error e => rw [hd] at h; cases h
    | ok r =>
      obtain ⟨sig, s1⟩ := r
      rw [hd] at h
      cases sig <;> simp only [Except.ok.injEq] at h <;> subst h <;> exact ⟨_, rfl⟩

/-- One step keeps `|free_list| + (number of set flags)` on a consistent pool. -/
theorem step_count (sz base C : Nat) (t t1 : Tracked) (c : Call) (hL : Layout sz base C)
    (hc : Consistent sz base C t.pool) (h : step t c = .ok t1) :
    t1.pool.pool_.length + occupied_count t1.pool =
      t.pool.pool_.length + occupied_count t.pool := by
  have hidx : ∀ q, allocated_index t.pool q = ptr_index sz base q := by
    intro q; simp [allocated_index, hc.h_sz, hc.h_base]
  obtain ⟨h1, h2⟩ := step_pool t t1 c h
  cases c with
  | allocate =>
    obtain ⟨p, hp⟩ := h1 rfl
    rcases allocate_spec sz base C t.pool hL hc with ⟨_, ha⟩ | ⟨l, q, hq, _, hf, ha, _⟩
    · rw [ha] at hp
      simp only [Except.ok.injEq, Prod.mk.injEq] at hp
      rw [← hp.2]
    · rw [ha] at hp
      simp only [Except.ok.injEq, Prod.mk.injEq] at hp
      rw [← hp.2]
      simp only [occupied_count, hq, List.length_append, List.length_singleton]
      rw [count_set_true _ _ hf]
      omega
  | deallocate q =>
    obtain ⟨sig, hp⟩ := h2 q rfl
    rcases deallocate_spec sz base C t.pool q hL hc with
      ⟨_, hx⟩ | ⟨_, _, hx⟩ | ⟨_, _, _, _, hx⟩ | ⟨_, _, _, hf, hx, _⟩ | ⟨_, _, _, _, hx⟩
    rotate_left 4
    · rw [hx] at hp; cases hp
    · rw [hx] at hp; simp only [Except.ok.injEq, Prod.mk.injEq] at hp; rw [← hp.2]
    · rw [hx] at hp; simp only [Except.ok.injEq, Prod.mk.injEq] at hp; rw [← hp.2]
    · rw [hx] at hp; simp only [Except.ok.injEq, Prod.mk.injEq] at hp; rw [← hp.2]
    · rw [hx] at hp
      simp only [Except.ok.injEq, Prod.mk.injEq] at hp
      rw [← hp.2]
      simp only [occupied_count, List.length_append, List.length_singleton]
      have := count_set_false t.pool.allocated_ (allocated_index t.pool q)
        (by rw [hidx]; exact hf)
      omega

theorem run_count (sz base C : Nat) (hL : Layout sz base C) (ops : List Call) :
    ∀ t t1, Sound sz base C t → run t ops = .ok t1 →
      t1.pool.pool_.length + occupied_count t1.pool =
        t.pool.pool_.length + occupied_count t.pool := by
  induction ops with
  | nil =>
    intro t t1 _ h
    simp only [run, Except.ok.injEq] at h
    subst h
    rfl
  | cons c cs ih =>
    intro t t1 hs h
    simp only [run] at h
    cases h2 : step t c with
    | error e => rw [h2] at h; cases h
    | ok t2 =>
      rw [h2] at h
      have hs2 := step_sound sz base C t t2 c hL hs h2
      rw [ih t2 t1 hs2 h, step_count sz base C t t2 c hL hs.pool_ok h2]

/-! ## The benchmark loops -/

/-- A successful `allocate()` in an exact state. -/
theorem exact_allocate (sz base C : Nat) (t : Tracked) (hL : Layout sz base C)
    (h : Exact sz base C t) (hne : t.pool.pool_ ≠ []) :
    ∃ p s1, allocate t.pool = .ok (p, s1) ∧ p ≠ 0 ∧ p ∉ t.live ∧
      Exact sz base C ⟨s1, p :: t.live⟩ ∧ (∃ i, i < C ∧ p = slot_addr sz base i) ∧
      used s1 = used t.pool + 1 := by
  have hc := h.sound.pool_ok
  obtain ⟨t1, hstep, he1⟩ := step_exact sz base C t .allocate hL h trivial
  rcases allocate_spec sz base C t.pool hL hc with ⟨hnil, _⟩ | ⟨l, p, hp, h0, _, ha, hc1⟩
  · exact absurd hnil hne
  · have e : t1 = ⟨{ t.pool with
        pool_ := l
        allocated_ := t.pool.allocated_.set (allocated_index t.pool p) true }, p :: t.live⟩ := by
      simp [step, ha, h0] at hstep; exact hstep.symm
    subst e
    have hr := hc.in_range p (by simp [hp])
    have hu := used_add_length sz base C t.pool hL hc
    have hu1 := used_add_length sz base C _ hL hc1
    simp only [hp, List.length_append, List.length_singleton] at hu hu1
    refine ⟨p, _, ha, h0, ?_, he1, ?_, by omega⟩
    · intro hl
      exact h.sound.disjoint p hl (by simp [hp])
    · exact ⟨ptr_index sz base p, hc.index_lt p (by simp [hp]),
        aligned_eq_slot sz base C p hL hr.1 hr.2 (h.pool_aligned p (by simp [hp]))⟩

/-- The release of a live address in an exact state. -/
theorem exact_release (sz base C : Nat) (t : Tracked) (p : Nat) (hL : Layout sz base C)
    (h : Exact sz base C t) (hp : p ∈ t.live) :
    ∃ s1, deallocate t.pool p = .ok (.released, s1) ∧
      Exact sz base C ⟨s1, t.live.filter (fun q => q != p)⟩ ∧
      used s1 + 1 = used t.pool := by
  obtain ⟨hb, hp2, hal, hf⟩ := h.live_slot p hp
  obtain ⟨s1, hd, _, hu, _⟩ :=
    release_occupied sz base C t.pool p hL h.sound.pool_ok hb hp2 hf
  obtain ⟨t1, hstep, he1⟩ := step_exact sz base C t (.deallocate p) hL h
    (Or.inr (Or.inr hal))
  have e : t1 = ⟨s1, t.live.filter (fun q => q != p)⟩ := by
    simp [step, hd] at hstep; exact hstep.symm
  subst e
  exact ⟨s1, hd, he1, hu⟩

theorem held_only_take (ops : List Call) :
    ∀ (c : Caller) (n : Nat), held_only c ops = true → held_only c (ops.take n) = true := by
  induction ops with
  | nil => intro c n h; simpa using h
  | cons x xs ih =>
    intro c n h
    cases n with
    | zero => simp [held_only]
    | succ n =>
      simp only [List.take_succ_cons, held_only, Bool.and_eq_true] at h ⊢
      refine ⟨h.1, ?_⟩
      cases hstep : caller_step c x with
      | ok c1 =>
        rw [hstep] at h
        exact ih c1 n h.2
      | error e =>
        rw [hstep] at h
        exact absurd h.2 (by simp)

/-- In an exact state whose live addresses are the ones the caller holds, `allocate()`
and the `deallocate` of a held address return and keep it so; the `deallocate` is a
release. -/
theorem caller_step_exact (sz base C : Nat) (c : Caller) (x : Call) (hL : Layout sz base C)
    (h : Exact sz base C ⟨c.pool, c.held⟩)
    (hx : ∀ p, x = .deallocate p → p ∈ c.held) :
    ∃ c1, caller_step c x = .ok c1 ∧ Exact sz base C ⟨c1.pool, c1.held⟩ ∧
      ∀ p, x = .deallocate p → deallocate c.pool p = .ok (.released, c1.pool) := by
  cases x with
  | allocate =>
    by_cases hne : c.pool.pool_ = []
    · have ha := allocate_nil c.pool hne
      exact ⟨⟨c.pool, c.held⟩, by simp [caller_step, ha], h, (fun p hp => by cases hp)⟩
    · obtain ⟨p, s1, ha, h0, _, he1, _, _⟩ :=
        exact_allocate sz base C ⟨c.pool, c.held⟩ hL h hne
      simp only at ha he1
      exact ⟨⟨s1, p :: c.held⟩, by simp [caller_step, ha, h0], he1,
        (fun q hq => by cases hq)⟩
  | deallocate p =>
    obtain ⟨s1, hd, he1, _⟩ := exact_release sz base C ⟨c.pool, c.held⟩ p hL h (hx p rfl)
    simp only at hd he1
    refine ⟨⟨s1, c.held.filter (fun q => q != p)⟩, by simp [caller_step, hd], he1, ?_⟩
    intro q hq
    cases hq
    exact hd

theorem caller_run_exact (sz base C : Nat) (hL : Layout sz base C) (ops : List Call) :
    ∀ c, Exact sz base C ⟨c.pool, c.held⟩ → held_only c ops = true →
      ∃ c1, caller_run c ops = .ok c1 ∧ Exact sz base C ⟨c1.pool, c1.held⟩ := by
  induction ops with
  | nil => intro c h _; exact ⟨c, rfl, h⟩
  | cons x xs ih =>
    intro c h hd
    simp only [held_only, Bool.and_eq_true] at hd
    have hx : ∀ p, x = .deallocate p → p ∈ c.held := by
      intro p hp
      subst hp
      simpa using hd.1
    obtain ⟨c1, h1, he1, _⟩ := caller_step_exact sz base C c x hL h hx
    rw [h1] at hd
    obtain ⟨c2, h2, he2⟩ := ih c1 he1 hd.2
    exact ⟨c2, by simp [caller_run, h1, h2], he2⟩

/-! ## The claims -/

/-- C1: for every capacity `C` (a `std::size_t`), the constructed pool has `used() == 0`,
`capacity() == C`, `full() == true` and `empty() == (C == 0)`. -/
theorem construct_queries (sz base C : Nat) (hC : C < SIZE_MOD) :
    used (construct sz base C) = 0 ∧ capacity (construct sz base C) = C ∧
    full (construct sz base C) = true ∧ empty (construct sz base C) = decide (C = 0) := by
  unfold SIZE_MOD at hC
  refine ⟨?_, rfl, ?_, ?_⟩
  · simp only [used, construct, List.length_map, List.length_range, SIZE_MOD]
    omega
  · simp only [full, construct, List.length_map, List.length_range, SIZE_MOD,
      decide_eq_true_eq]
    omega
  · cases C <;> simp [empty, construct, List.range_succ]

theorem construct_queries_witness :
    (256 : Nat) < SIZE_MOD ∧
    (used (construct 4 4096 256) = 0 ∧ capacity (construct 4 4096 256) = 256 ∧
     full (construct 4 4096 256) = true ∧ empty (construct 4 4096 256) = decide (256 = 0)) :=
  ⟨by decide, construct_queries 4 4096 256 (by decide)⟩

/-- C2: for every capacity `C` and every `k ≤ C`, `k` consecutive `allocate()` calls on a
freshly constructed pool all succeed: they return `k` non-null, pairwise distinct
addresses, and afterwards `used() == k`, `empty() == (k == C)`, `full() == (k == 0)` and
`capacity() == C`. -/
theorem allocate_k_times (sz base C k : Nat) (hL : Layout sz base C) (hk : k ≤ C) :
    ∃ ps s, allocate_n (construct sz base C) k = .ok (ps, s) ∧
      ps.length = k ∧ (∀ p ∈ ps, p ≠ 0) ∧ ps.Nodup ∧
      used s = k ∧ empty s = decide (k = C) ∧ full s = decide (k = 0) ∧ capacity s = C := by
  have hc := consistent_construct sz base C hL
  have hlen : (construct sz base C).pool_.length = C := by simp [construct]
  obtain ⟨ps, s, hn, hc1, hpool, hpl, hnz⟩ :=
    allocate_n_spec sz base C hL k _ hc (by rw [hlen]; exact hk)
  have hnd := consistent_pool_nodup sz base C _ hc
  rw [hpool, List.nodup_append] at hnd
  have hu := used_add_length sz base C s hL hc1
  have hl2 : s.pool_.length + k = C := by
    have := congrArg List.length hpool
    rw [hlen] at this
    simp [hpl] at this
    omega
  have hCm := layout_capacity_lt sz base C hL
  refine ⟨ps, s, hn, hpl, hnz, List.nodup_reverse.mp hnd.2.1, by omega, ?_, ?_, hc1.h_cap⟩
  · have he : s.pool_.isEmpty = decide (s.pool_.length = 0) := by
      cases s.pool_ <;> simp
    unfold empty
    rw [he]
    by_cases hkc : k = C
    · have h0 : s.pool_.length = 0 := by omega
      simp [h0, hkc]
    · have h0 : s.pool_.length ≠ 0 := by omega
      simp [h0, hkc]
  · unfold full
    rw [hc1.h_cap, Nat.mod_eq_of_lt (by omega)]
    by_cases hkc : k = 0
    · have h0 : s.pool_.length = C := by omega
      simp [h0, hkc]
    · have h0 : s.pool_.length ≠ C := by omega
      simp [h0, hkc]

theorem allocate_k_times_witness :
    Layout 4 4096 256 ∧ 256 ≤ 256 ∧
    ∃ ps s, allocate_n (construct 4 4096 256) 256 = .ok (ps, s) ∧
      ps.length = 256 ∧ (∀ p ∈ ps, p ≠ 0) ∧ ps.Nodup ∧
      used s = 256 ∧ empty s = decide (256 = 256) ∧ full s = decide (256 = 0) ∧
      capacity s = 256 :=
  ⟨by decide, by decide, allocate_k_times 4 4096 256 256 (by decide) (by decide)⟩

/-- C3: in every state reached from construction in which `used() == capacity()`, the
free-list is empty and `allocate()` returns `nullptr` without a fault and without any
change of state, so `used()`, `capacity()`, `empty()` and `full()` keep their values. -/
theorem allocate_exhausted (sz base C : Nat) (ops : List Call) (t : Tracked)
    (hL : Layout sz base C) (hrun : run (fresh sz base C) ops = .ok t)
    (hfull : used t.pool = capacity t.pool) :
    t.pool.pool_ = [] ∧ empty t.pool = true ∧
    ∃ s1, allocate t.pool = .ok (0, s1) ∧ s1 = t.pool ∧
      used s1 = used t.pool ∧ capacity s1 = capacity t.pool ∧
      empty s1 = empty t.pool ∧ full s1 = full t.pool := by
  have hs := sound_of_run sz base C ops t hL hrun
  have hu := used_add_length sz base C t.pool hL hs.pool_ok
  have hnil : t.pool.pool_ = [] := by
    apply List.eq_nil_of_length_eq_zero
    unfold capacity at hfull
    rw [hs.pool_ok.h_cap] at hfull
    omega
  exact ⟨hnil, by simp [empty, hnil], t.pool, allocate_nil t.pool hnil, rfl, rfl, rfl, rfl, rfl⟩

theorem allocate_exhausted_witness :
    Layout 4 4096 1 ∧
    run (fresh 4 4096 1) [.allocate] = .ok ⟨⟨4, 1, 4096, [], [true]⟩, [4096]⟩ ∧
    used (⟨4, 1, 4096, [], [true]⟩ : arena_pool) = capacity ⟨4, 1, 4096, [], [true]⟩ ∧
    allocate ⟨4, 1, 4096, [], [true]⟩ = .ok (0, ⟨4, 1, 4096, [], [true]⟩) := by
  have h := allocate_exhausted 4 4096 1 [.allocate] ⟨⟨4, 1, 4096, [], [true]⟩, [4096]⟩
    (by decide) (by rfl) (by decide)
  obtain ⟨_, _, s1, h1, h2, _⟩ := h
  exact ⟨by decide, by rfl, by decide, by rw [h1, h2]⟩

/-- C4, refuted as stated: with `T = std::array<int, 4>` (`sizeof(T) = 16`, as in the
benchmark) and one slot at address 4096, after `allocate()` returned 4096 the call
`deallocate(4100)` is accepted (4100 is the address of the second `int` of the slot), and
then the address 4096, returned and never released, is rejected as a double release. -/
theorem release_live_counterexample :
    run (fresh 16 4096 1) [.allocate, .deallocate 4100] =
      .ok ⟨⟨16, 1, 4096, [4100], [false]⟩, [4096]⟩ ∧
    4096 ∈ [4096] ∧
    deallocate ⟨16, 1, 4096, [4100], [false]⟩ 4096 =
      .ok (.DoubleRelease, ⟨16, 1, 4096, [4100], [false]⟩) := by
  refine ⟨by rfl, by decide, by rfl⟩

/-- C4, amended: in every state reached from construction, an `allocate()` followed at
once by the `deallocate` of its result succeeds and restores `used()`, and the address is
in the free-list again, returned by the next `allocate()`; and when no `deallocate`
argument of the sequence was in the interior of a slot, every live address `p` is
released by `deallocate(p)`: `used()` decreases by exactly one, `p` is in the free-list
again and the next `allocate()` returns it. -/
theorem release_live (sz base C : Nat) (ops : List Call) (t : Tracked)
    (hL : Layout sz base C) (hrun : run (fresh sz base C) ops = .ok t) :
    (granular_calls sz base C ops → ∀ p ∈ t.live,
      ∃ s1, deallocate t.pool p = .ok (.released, s1) ∧ used s1 + 1 = used t.pool ∧
        p ∈ s1.pool_ ∧ ∃ s2, allocate s1 = .ok (p, s2)) ∧
    (∀ q s2, allocate t.pool = .ok (q, s2) → q ≠ 0 →
      ∃ s3, deallocate s2 q = .ok (.released, s3) ∧ used s3 = used t.pool ∧
        q ∈ s3.pool_ ∧ ∃ s4, allocate s3 = .ok (q, s4)) := by
  have hc := (sound_of_run sz base C ops t hL hrun).pool_ok
  constructor
  · intro hg p hp
    have he := exact_of_run sz base C ops t hL hg hrun
    obtain ⟨hb, hp2, _, hf⟩ := he.live_slot p hp
    obtain ⟨s1, hd, _, hu, hpool, _, ha⟩ := release_occupied sz base C t.pool p hL hc hb hp2 hf
    exact ⟨s1, hd, hu, by simp [hpool], ha⟩
  · intro q s2 ha hq
    rcases allocate_spec sz base C t.pool hL hc with ⟨_, ha2⟩ | ⟨l, r, hr, _, _, ha2, hc2⟩
    · rw [ha2] at ha
      cases ha
      exact absurd rfl hq
    · rw [ha2] at ha
      cases ha
      have hidx : allocated_index t.pool q = ptr_index sz base q := by
        simp [allocated_index, hc.h_sz, hc.h_base]
      have hrng := hc.in_range q (by simp [hr])
      have hlt := hc.index_lt q (by simp [hr])
      obtain ⟨s3, hd, _, hu, hpool, _, ha3⟩ :=
        release_occupied sz base C _ q hL hc2 hrng.1 hrng.2 (by simp [hidx, hc.table, hlt])
      have hu1 := used_add_length sz base C t.pool hL hc
      have hu2 := used_add_length sz base C _ hL hc2
      simp only [hr, List.length_append, List.length_singleton] at hu1 hu2
      exact ⟨s3, hd, by omega, by simp [hpool], ha3⟩

theorem release_live_witness :
    Layout 4 4096 2 ∧ granular_calls 4 4096 2 [.allocate, .allocate, .deallocate 7] ∧
    run (fresh 4 4096 2) [.allocate, .allocate, .deallocate 7] =
      .ok ⟨⟨4, 2, 4096, [], [true, true]⟩, [4096, 4100]⟩ ∧
    4100 ∈ [4096, 4100] ∧
    ∃ s1, deallocate ⟨4, 2, 4096, [], [true, true]⟩ 4100 = .ok (.released, s1) ∧
      used s1 + 1 = used ⟨4, 2, 4096, [], [true, true]⟩ ∧ 4100 ∈ s1.pool_ ∧
      ∃ s2, allocate s1 = .ok (4100, s2) :=
  ⟨by decide, by decide, by rfl, by decide,
    (release_live 4 4096 2 [.allocate, .allocate, .deallocate 7]
      ⟨⟨4, 2, 4096, [], [true, true]⟩, [4096, 4100]⟩
      (by decide) (by rfl)).1 (by decide) 4100 (by decide)⟩

/-- C5: in every state reached from construction, `deallocate` of the address of a slot
whose flag is clear, and of every address held by the free-list, reports the double
release and changes nothing (so `used()` keeps its value); in particular, after
`deallocate(p)` released `p`, a second `deallocate(p)` is rejected in the same way as long
as no `allocate()` was called in between. -/
theorem release_free_slot (sz base C : Nat) (ops : List Call) (t : Tracked)
    (hL : Layout sz base C) (hrun : run (fresh sz base C) ops = .ok t) :
    (∀ i, i < C → t.pool.allocated_[i]? = some false →
      deallocate t.pool (slot_addr sz base i) = .ok (.DoubleRelease, t.pool)) ∧
    (∀ p ∈ t.pool.pool_, deallocate t.pool p = .ok (.DoubleRelease, t.pool)) ∧
    (∀ p s1, deallocate t.pool p = .ok (.released, s1) →
      ∀ (qs live : List Nat) (t2 : Tracked),
        run ⟨s1, live⟩ (qs.map Call.deallocate) = .ok t2 →
        deallocate t2.pool p = .ok (.DoubleRelease, t2.pool)) := by
  have hs := sound_of_run sz base C ops t hL hrun
  have hc := hs.pool_ok
  have hbase := hL.2.1
  refine ⟨?_, ?_, ?_⟩
  · intro i hi hf
    have hr := slot_addr_lt sz base C i hL hi
    have hidx : allocated_index t.pool (slot_addr sz base i) = i := by
      simp only [allocated_index, hc.h_sz, hc.h_base]
      exact ptr_index_slot sz base i hL.1
        (by have := hL.2.2; unfold slot_addr at hr; omega)
    exact deallocate_free t.pool _ (by omega) (by rw [hc.h_base]; exact hr.1)
      (by rw [hc.h_base, hc.h_cap, hc.h_sz]; exact hr.2) (by rw [hidx]; exact hf)
  · intro p hp
    have hr := hc.in_range p hp
    have hlt := hc.index_lt p hp
    have hf : t.pool.allocated_[ptr_index sz base p]? = some false :=
      (hc.flags _ hlt).mpr (List.mem_map_of_mem _ hp)
    exact deallocate_free t.pool p (by omega) (by rw [hc.h_base]; exact hr.1)
      (by rw [hc.h_base, hc.h_cap, hc.h_sz]; exact hr.2)
      (by simp only [allocated_index, hc.h_sz, hc.h_base]; exact hf)
  · intro p s1 hd qs live t2 hrun2
    rcases deallocate_spec sz base C t.pool p hL hc with
      ⟨_, hx⟩ | ⟨_, _, hx⟩ | ⟨_, _, _, _, hx⟩ | ⟨h0, hb, hp, hf, _, _⟩ | ⟨_, _, _, _, hx⟩
    rotate_left 4
    · rw [hx] at hd; cases hd
    · rw [hx] at hd; cases hd
    · rw [hx] at hd; cases hd
    · rw [hx] at hd; cases hd
    · obtain ⟨s1b, hd2, hc1, _, _, hf1, _⟩ :=
        release_occupied sz base C t.pool p hL hc hb hp hf
      rw [hd] at hd2
      cases hd2
      obtain ⟨hc2, hf2⟩ := deallocate_only_keeps_clear sz base C hL _ qs
        ⟨s1, live⟩ t2 hc1 hf1 hrun2
      exact deallocate_free t2.pool p h0 (by rw [hc2.h_base]; exact hb)
        (by rw [hc2.h_base, hc2.h_cap, hc2.h_sz]; exact hp)
        (by simp only [allocated_index, hc2.h_sz, hc2.h_base]; exact hf2)

theorem release_free_slot_witness :
    Layout 4 4096 3 ∧
    run (fresh 4 4096 3) [.allocate, .allocate, .deallocate 4104] =
      .ok ⟨⟨4, 3, 4096, [4096, 4104], [false, true, false]⟩, [4100]⟩ ∧
    deallocate ⟨4, 3, 4096, [4096, 4104], [false, true, false]⟩ (slot_addr 4 4096 2) =
      .ok (.DoubleRelease, ⟨4, 3, 4096, [4096, 4104], [false, true, false]⟩) :=
  ⟨by decide, by rfl,
    (release_free_slot 4 4096 3 [.allocate, .allocate, .deallocate 4104]
      ⟨⟨4, 3, 4096, [4096, 4104], [false, true, false]⟩, [4100]⟩ (by decide) (by rfl)).1
      2 (by decide) (by rfl)⟩

/-- C6: in every state, `deallocate(nullptr)` reports the null release, the first check of
the function, and changes nothing, so `used()` keeps its value. -/
theorem release_null (s : arena_pool) :
    ∃ s1, deallocate s 0 = .ok (.NullRelease, s1) ∧ s1 = s ∧ used s1 = used s :=
  ⟨s, deallocate_null s, rfl, rfl⟩

/-- C7: in every state reached from construction, `deallocate(p)` of a non-null address
outside the storage range, which starts at `&arena_[0]` and ends before
`&arena_[capacity_]`, reports the foreign pointer and changes nothing, so `used()` keeps
its value. -/
theorem release_foreign (sz base C : Nat) (ops : List Call) (t : Tracked) (p : Nat)
    (hL : Layout sz base C) (hrun : run (fresh sz base C) ops = .ok t) (h0 : p ≠ 0)
    (h : p < slot_addr sz base 0 ∨ slot_addr sz base C ≤ p) :
    ∃ s1, deallocate t.pool p = .ok (.ForeignPointer, s1) ∧ s1 = t.pool ∧
      used s1 = used t.pool := by
  have hc := (sound_of_run sz base C ops t hL hrun).pool_ok
  refine ⟨t.pool, deallocate_foreign t.pool p h0 ?_, rfl, rfl⟩
  rw [hc.h_base, hc.h_cap, hc.h_sz]
  simpa [slot_addr] using h

theorem release_foreign_witness :
    Layout 4 4096 2 ∧
    run (fresh 4 4096 2) [.allocate] = .ok ⟨⟨4, 2, 4096, [4096], [false, true]⟩, [4100]⟩ ∧
    (4104 : Nat) ≠ 0 ∧ ((4104 : Nat) < slot_addr 4 4096 0 ∨ slot_addr 4 4096 2 ≤ 4104) ∧
    ∃ s1, deallocate ⟨4, 2, 4096, [4096], [false, true]⟩ 4104 = .ok (.ForeignPointer, s1) ∧
      s1 = ⟨4, 2, 4096, [4096], [false, true]⟩ ∧
      used s1 = used ⟨4, 2, 4096, [4096], [false, true]⟩ :=
  ⟨by decide, by rfl, by decide, by decide,
    release_foreign 4 4096 2 [.allocate] ⟨⟨4, 2, 4096, [4096], [false, true]⟩, [4100]⟩ 4104
      (by decide) (by rfl) (by decide) (by decide)⟩

/-- C8: every sequence of calls on a constructed pool without an interior `deallocate`
argument returns, and after every sequence of calls that returned, whatever their
arguments and outcomes, `allocate()` returns without a fault, and an address it returns
is not live and has an index whose flag was clear just before the call. -/
theorem allocate_not_live (sz base C : Nat) (ops : List Call) (hL : Layout sz base C) :
    (granular_calls sz base C ops → ∃ t, run (fresh sz base C) ops = .ok t) ∧
    ∀ t, run (fresh sz base C) ops = .ok t →
      ∃ p s1, allocate t.pool = .ok (p, s1) ∧
        (p ≠ 0 → p ∉ t.live ∧ t.pool.allocated_[allocated_index t.pool p]? = some false) := by
  constructor
  · intro hg
    obtain ⟨t, hrun, _⟩ := run_exact sz base C hL ops _ (exact_fresh sz base C hL) hg
    exact ⟨t, hrun⟩
  · intro t hrun
    have hs := sound_of_run sz base C ops t hL hrun
    rcases allocate_spec sz base C t.pool hL hs.pool_ok with
      ⟨_, ha⟩ | ⟨l, p, hp, _, hf, ha, _⟩
    · exact ⟨0, _, ha, fun h => absurd rfl h⟩
    · refine ⟨p, _, ha, fun _ => ⟨?_, hf⟩⟩
      intro hl
      exact hs.disjoint p hl (by simp [hp])

theorem allocate_not_live_witness :
    Layout 4 4096 2 ∧
    run (fresh 4 4096 2) [.allocate, .deallocate 4100, .deallocate 4100, .allocate] =
      .ok ⟨⟨4, 2, 4096, [4096], [false, true]⟩, [4100]⟩ ∧
    ∃ p s1, allocate ⟨4, 2, 4096, [4096], [false, true]⟩ = .ok (p, s1) ∧
      (p ≠ 0 → p ∉ [4100] ∧
        (⟨4, 2, 4096, [4096], [false, true]⟩ : arena_pool).allocated_[
          allocated_index ⟨4, 2, 4096, [4096], [false, true]⟩ p]? = some false) :=
  ⟨by decide, by rfl,
    (allocate_not_live 4 4096 2 [.allocate, .deallocate 4100, .deallocate 4100, .allocate]
      (by decide)).2 ⟨⟨4, 2, 4096, [4096], [false, true]⟩, [4100]⟩ (by rfl)⟩

/-- C9, refuted as stated: with `T = std::array<int, 4>` (`sizeof(T) = 16`) and two slots
at 4096 and 4112, after `allocate()` returned 4112 the call `deallocate(4120)` is accepted
(4120 is the address of the third `int` of that slot), and the next `allocate()` returns
4120, which is the address of no slot. -/
theorem allocate_slot_counterexample :
    run (fresh 16 4096 2) [.allocate, .deallocate 4120] =
      .ok ⟨⟨16, 2, 4096, [4096, 4120], [false, false]⟩, [4112]⟩ ∧
    allocate ⟨16, 2, 4096, [4096, 4120], [false, false]⟩ =
      .ok (4120, ⟨16, 2, 4096, [4096], [false, true]⟩) ∧
    ∀ i, slot_addr 16 4096 i ≠ 4120 := by
  refine ⟨by rfl, by rfl, ?_⟩
  intro i
  unfold slot_addr
  omega

/-- C9, amended: every sequence of calls on a constructed pool of capacity `C` without
an interior `deallocate` argument returns, and after every sequence of calls that
returned, `allocate()` returns without a fault, a non-null address it returns lies in the
storage range and the index computed for it into the occupancy table is below `C`; and
when no `deallocate` argument of the sequence was in the interior of a slot, the address
is the address of slot `i` for some `i < C`, the index computed for it. -/
theorem allocate_slot (sz base C : Nat) (ops : List Call) (hL : Layout sz base C) :
    (granular_calls sz base C ops → ∃ t, run (fresh sz base C) ops = .ok t) ∧
    ∀ t, run (fresh sz base C) ops = .ok t →
      ∃ p s1, allocate t.pool = .ok (p, s1) ∧
        (p ≠ 0 →
          (slot_addr sz base 0 ≤ p ∧ p < slot_addr sz base C ∧ allocated_index t.pool p < C) ∧
          (granular_calls sz base C ops →
            ∃ i, i < C ∧ p = slot_addr sz base i ∧ allocated_index t.pool p = i)) := by
  constructor
  · intro hg
    obtain ⟨t, hrun, _⟩ := run_exact sz base C hL ops _ (exact_fresh sz base C hL) hg
    exact ⟨t, hrun⟩
  · intro t hrun
    have hc := (sound_of_run sz base C ops t hL hrun).pool_ok
    rcases allocate_spec sz base C t.pool hL hc with ⟨_, ha⟩ | ⟨l, p, hp, _, _, ha, _⟩
    · exact ⟨0, _, ha, fun h => absurd rfl h⟩
    · have hr := hc.in_range p (by simp [hp])
      have hidx : allocated_index t.pool p = ptr_index sz base p := by
        simp [allocated_index, hc.h_sz, hc.h_base]
      have hlt := hc.index_lt p (by simp [hp])
      refine ⟨p, _, ha, fun _ => ⟨⟨?_, ?_, ?_⟩, ?_⟩⟩
      · simpa [slot_addr] using hr.1
      · simpa [slot_addr] using hr.2
      · rw [hidx]; exact hlt
      · intro hg
        have he := exact_of_run sz base C ops t hL hg hrun
        exact ⟨ptr_index sz base p, hlt,
          aligned_eq_slot sz base C p hL hr.1 hr.2 (he.pool_aligned p (by simp [hp])), hidx⟩

theorem allocate_slot_witness :
    Layout 12 4096 2 ∧
    granular_calls 12 4096 2 [.allocate, .deallocate 4108, .deallocate 4120, .deallocate 0] ∧
    run (fresh 12 4096 2) [.allocate, .deallocate 4108, .deallocate 4120, .deallocate 0] =
      .ok ⟨⟨12, 2, 4096, [4096, 4108], [false, false]⟩, []⟩ ∧
    ∃ p s1, allocate ⟨12, 2, 4096, [4096, 4108], [false, false]⟩ = .ok (p, s1) ∧
      (p ≠ 0 → ∃ i, i < 2 ∧ p = slot_addr 12 4096 i ∧
        allocated_index ⟨12, 2, 4096, [4096, 4108], [false, false]⟩ p = i) := by
  obtain ⟨p, s1, ha, h⟩ := (allocate_slot 12 4096 2
    [.allocate, .deallocate 4108, .deallocate 4120, .deallocate 0] (by decide)).2
    ⟨⟨12, 2, 4096, [4096, 4108], [false, false]⟩, []⟩ (by rfl)
  exact ⟨by decide, by decide, by rfl, p, s1, ha, fun hp => (h hp).2 (by decide)⟩

/-- C10: for every sequence of calls on a constructed pool that applies `deallocate` only
to addresses the caller holds at the time of the call (returned by a successful
`allocate()` and not since passed to `deallocate`), every initial segment of the sequence
runs without a fault and ends in a state where the number of distinct addresses the
caller holds equals `used()`. -/
theorem held_count (sz base C : Nat) (ops : List Call) (hL : Layout sz base C)
    (hd : held_only (caller_fresh sz base C) ops = true) :
    ∀ n, ∃ c, caller_run (caller_fresh sz base C) (ops.take n) = .ok c ∧
      c.held.toFinset.card = used c.pool := by
  intro n
  obtain ⟨c, hrun, he⟩ := caller_run_exact sz base C hL (ops.take n)
    (caller_fresh sz base C) (exact_fresh sz base C hL) (held_only_take ops _ n hd)
  exact ⟨c, hrun, exact_live_card sz base C ⟨c.pool, c.held⟩ hL he⟩

theorem held_count_witness :
    Layout 4 4096 2 ∧
    held_only (caller_fresh 4 4096 2)
      [.allocate, .allocate, .deallocate 4100, .allocate, .allocate, .deallocate 4096] = true ∧
    ∀ n, ∃ c, caller_run (caller_fresh 4 4096 2) (List.take n
        [.allocate, .allocate, .deallocate 4100, .allocate, .allocate, .deallocate 4096]) =
          .ok c ∧
      c.held.toFinset.card = used c.pool :=
  ⟨by decide, by rfl, held_count 4 4096 2
    [.allocate, .allocate, .deallocate 4100, .allocate, .allocate, .deallocate 4096]
    (by decide) (by rfl)⟩

/-- C11: in every state reached from construction, the free-list is no longer than the
capacity, `used()` is `capacity - |free_list|` without wrap-around, `empty()` holds iff
`used() == capacity()` iff the free-list is empty, `full()` holds iff `used() == 0`, and
`capacity()` is the capacity given to the constructor. -/
theorem queries_agree (sz base C : Nat) (ops : List Call) (t : Tracked)
    (hL : Layout sz base C) (hrun : run (fresh sz base C) ops = .ok t) :
    t.pool.pool_.length ≤ C ∧
    used t.pool = C - t.pool.pool_.length ∧
    used t.pool + t.pool.pool_.length = C ∧
    (empty t.pool = true ↔ used t.pool = capacity t.pool) ∧
    (used t.pool = capacity t.pool ↔ t.pool.pool_ = []) ∧
    (full t.pool = true ↔ used t.pool = 0) ∧
    capacity t.pool = C := by
  have hc := (sound_of_run sz base C ops t hL hrun).pool_ok
  have hle := consistent_length_le sz base C t.pool hL hc
  have hu := used_add_length sz base C t.pool hL hc
  have hCm := layout_capacity_lt sz base C hL
  have hcap : capacity t.pool = C := hc.h_cap
  have hnil : t.pool.pool_ = [] ↔ t.pool.pool_.length = 0 :=
    ⟨fun h => by simp [h], List.eq_nil_of_length_eq_zero⟩
  have hemp : empty t.pool = true ↔ t.pool.pool_ = [] := by
    unfold empty
    exact List.isEmpty_iff
  refine ⟨hle, by omega, hu, ?_, ?_, ?_, hcap⟩
  · rw [hemp, hnil, hcap]
    omega
  · rw [hnil, hcap]
    omega
  · unfold full
    rw [hc.h_cap, Nat.mod_eq_of_lt (by omega), decide_eq_true_eq]
    omega

theorem queries_agree_witness :
    Layout 4 4096 3 ∧
    run (fresh 4 4096 3) [.allocate, .deallocate 0, .allocate] =
      .ok ⟨⟨4, 3, 4096, [4096], [false, true, true]⟩, [4100, 4104]⟩ ∧
    used (⟨4, 3, 4096, [4096], [false, true, true]⟩ : arena_pool) = 3 - 1 :=
  ⟨by decide, by rfl,
    (queries_agree 4 4096 3 [.allocate, .deallocate 0, .allocate]
      ⟨⟨4, 3, 4096, [4096], [false, true, true]⟩, [4100, 4104]⟩ (by decide) (by rfl)).2.1⟩

/-- C12: a pool constructed with capacity 0 stays in its initial state under every
sequence of calls, whatever the arguments: `allocate()` returns `nullptr`, `used()` and
`capacity()` are 0, `empty()` and `full()` are both true, and every `deallocate` is
rejected (as a null or a foreign pointer) and changes nothing. -/
theorem zero_capacity (sz base : Nat) (ops : List Call) :
    ∃ t, run (fresh sz base 0) ops = .ok t ∧ t = fresh sz base 0 ∧
      allocate t.pool = .ok (0, t.pool) ∧
      used t.pool = 0 ∧ capacity t.pool = 0 ∧ empty t.pool = true ∧ full t.pool = true ∧
      ∀ p, ∃ sig, deallocate t.pool p = .ok (sig, t.pool) ∧
        (sig = .NullRelease ∨ sig = .ForeignPointer) := by
  have hd : ∀ p, ∃ sig, deallocate (construct sz base 0) p = .ok (sig, construct sz base 0) ∧
      (sig = .NullRelease ∨ sig = .ForeignPointer) := by
    intro p
    by_cases h0 : p = 0
    · subst h0
      exact ⟨_, deallocate_null _, Or.inl rfl⟩
    · refine ⟨_, deallocate_foreign _ p h0 ?_, Or.inr rfl⟩
      simp only [construct, Nat.zero_mul, Nat.add_zero]
      omega
  have ha : allocate (construct sz base 0) = .ok (0, construct sz base 0) :=
    allocate_nil _ (by simp [construct])
  have hstep : ∀ c, step (fresh sz base 0) c = .ok (fresh sz base 0) := by
    intro c
    cases c with
    | allocate => simp [step, fresh, ha]
    | deallocate p =>
      obtain ⟨sig, hp, hs⟩ := hd p
      rcases hs with rfl | rfl <;> simp [step, fresh, hp]
  have hrun : run (fresh sz base 0) ops = .ok (fresh sz base 0) := by
    induction ops with
    | nil => rfl
    | cons c cs ih => simp [run, hstep c, ih]
  refine ⟨fresh sz base 0, hrun, rfl, ha, ?_, rfl, ?_, ?_, hd⟩
  · simp [fresh, used, construct, SIZE_MOD]
  · simp [fresh, empty, construct]
  · simp [fresh, full, construct, SIZE_MOD]

/-- C14: in every state reached from construction, each of the three violations is
ignored when the assertion is compiled out: `deallocate` of the null address, of an
address outside the storage range, and of an in-range address whose slot flag is clear
returns with the whole state (free-list, occupancy table, capacity) as it was before the
call; and every call that does not release returns the state unchanged. -/
theorem rejected_release_keeps_state (sz base C : Nat) (ops : List Call) (t : Tracked)
    (p : Nat) (hL : Layout sz base C) (hrun : run (fresh sz base C) ops = .ok t) :
    (p = 0 → deallocate t.pool p = .ok (.NullRelease, t.pool)) ∧
    (p ≠ 0 → (p < slot_addr sz base 0 ∨ slot_addr sz base C ≤ p) →
      deallocate t.pool p = .ok (.ForeignPointer, t.pool)) ∧
    (slot_addr sz base 0 ≤ p → p < slot_addr sz base C →
      t.pool.allocated_[allocated_index t.pool p]? = some false →
      deallocate t.pool p = .ok (.DoubleRelease, t.pool)) ∧
    (∀ sig s1, deallocate t.pool p = .ok (sig, s1) → sig ≠ .released → s1 = t.pool) := by
  have hc := (sound_of_run sz base C ops t hL hrun).pool_ok
  have hbase := hL.2.1
  refine ⟨?_, ?_, ?_, ?_⟩
  · rintro rfl
    exact deallocate_null _
  · intro h0 h
    refine deallocate_foreign t.pool p h0 ?_
    rw [hc.h_base, hc.h_cap, hc.h_sz]
    simpa [slot_addr] using h
  · intro hb hp hf
    simp only [slot_addr, Nat.zero_mul, Nat.add_zero] at hb hp
    exact deallocate_free t.pool p (by omega) (by rw [hc.h_base]; exact hb)
      (by rw [hc.h_base, hc.h_cap, hc.h_sz]; exact hp) hf
  · intro sig s1 hd hs
    rcases deallocate_spec sz base C t.pool p hL hc with
      ⟨_, hx⟩ | ⟨_, _, hx⟩ | ⟨_, _, _, _, hx⟩ | ⟨_, _, _, _, hx, _⟩ | ⟨_, _, _, _, hx⟩
    · rw [hx] at hd; cases hd; rfl
    · rw [hx] at hd; cases hd; rfl
    · rw [hx] at hd; cases hd; rfl
    · rw [hx] at hd; cases hd; exact absurd rfl hs
    · rw [hx] at hd; cases hd

theorem rejected_release_keeps_state_witness :
    Layout 4 4096 2 ∧
    run (fresh 4 4096 2) [.allocate] = .ok ⟨⟨4, 2, 4096, [4096], [false, true]⟩, [4100]⟩ ∧
    slot_addr 4 4096 0 ≤ 4096 ∧ 4096 < slot_addr 4 4096 2 ∧
    deallocate ⟨4, 2, 4096, [4096], [false, true]⟩ 4096 =
      .ok (.DoubleRelease, ⟨4, 2, 4096, [4096], [false, true]⟩) :=
  ⟨by decide, by rfl, by decide, by decide,
    (rejected_release_keeps_state 4 4096 2 [.allocate]
      ⟨⟨4, 2, 4096, [4096], [false, true]⟩, [4100]⟩ 4096 (by decide) (by rfl)).2.2.1
      (by decide) (by decide) (by rfl)⟩

/-- C19: in every state reached from construction whose free-list is not empty,
`allocate()` returns a non-null `p`, and `deallocate(p)` right after it succeeds and
gives back exactly the state before the `allocate()` (same free-list in the same order,
same occupancy table), so the next `allocate()` returns `p` again. -/
theorem round_trip (sz base C : Nat) (ops : List Call) (t : Tracked)
    (hL : Layout sz base C) (hrun : run (fresh sz base C) ops = .ok t)
    (hne : t.pool.pool_ ≠ []) :
    ∃ p s1, allocate t.pool = .ok (p, s1) ∧ p ≠ 0 ∧
      ∃ s2, deallocate s1 p = .ok (.released, s2) ∧ s2 = t.pool ∧
        allocate s2 = .ok (p, s1) := by
  have hc := (sound_of_run sz base C ops t hL hrun).pool_ok
  obtain ⟨p, s1, ha, h0, _, _, hd⟩ := allocate_deallocate_restores sz base C t.pool hL hc hne
  exact ⟨p, s1, ha, h0, t.pool, hd, rfl, ha⟩

theorem round_trip_witness :
    Layout 16 4096 2 ∧
    run (fresh 16 4096 2) [.allocate, .deallocate 4120] =
      .ok ⟨⟨16, 2, 4096, [4096, 4120], [false, false]⟩, [4112]⟩ ∧
    (⟨16, 2, 4096, [4096, 4120], [false, false]⟩ : arena_pool).pool_ ≠ [] ∧
    ∃ p s1, allocate ⟨16, 2, 4096, [4096, 4120], [false, false]⟩ = .ok (p, s1) ∧ p ≠ 0 ∧
      ∃ s2, deallocate s1 p = .ok (.released, s2) ∧
        s2 = ⟨16, 2, 4096, [4096, 4120], [false, false]⟩ ∧ allocate s2 = .ok (p, s1) :=
  ⟨by decide, by rfl, by decide,
    round_trip 16 4096 2 [.allocate, .deallocate 4120]
      ⟨⟨16, 2, 4096, [4096, 4120], [false, false]⟩, [4112]⟩ (by decide) (by rfl) (by decide)⟩

/-- C13, refuted as stated: with `T = std::array<int, 4>` (`sizeof(T) = 16`) and both
slots 4096 and 4112 allocated, `deallocate(4104)`, an address inside slot 0 that is the
address of no slot, is not reported as a foreign pointer: it is released, the flag of
slot 0 is cleared and 4104 is pushed onto the free-list. -/
theorem foreign_iff_out_of_range_counterexample :
    run (fresh 16 4096 2) [.allocate, .allocate] =
      .ok ⟨⟨16, 2, 4096, [], [true, true]⟩, [4096, 4112]⟩ ∧
    (∀ i, slot_addr 16 4096 i ≠ 4104) ∧
    deallocate ⟨16, 2, 4096, [], [true, true]⟩ 4104 =
      .ok (.released, ⟨16, 2, 4096, [4104], [false, true]⟩) := by
  refine ⟨by rfl, ?_, by rfl⟩
  intro i
  unfold slot_addr
  omega

/-- C13, amended: `deallocate` validates the address against the storage range: in every
state reached from construction, `deallocate(p)` reports the foreign pointer exactly when
`p` is non-null and outside the range that starts at `&arena_[0]` and ends before
`&arena_[capacity_]`, and then it leaves the whole state unchanged. A non-null address
inside the range, a slot address or not, is handled by the index computed for it: a
double release or a release when the index is inside the occupancy table (as it is for
every slot address), and an access outside the table otherwise. -/
theorem foreign_iff_out_of_range (sz base C : Nat) (ops : List Call) (t : Tracked) (p : Nat)
    (hL : Layout sz base C) (hrun : run (fresh sz base C) ops = .ok t) :
    (∀ sig s1, deallocate t.pool p = .ok (sig, s1) →
      (sig = .ForeignPointer ↔
        (p ≠ 0 ∧ (p < slot_addr sz base 0 ∨ slot_addr sz base C ≤ p)))) ∧
    (p ≠ 0 → (p < slot_addr sz base 0 ∨ slot_addr sz base C ≤ p) →
      deallocate t.pool p = .ok (.ForeignPointer, t.pool)) ∧
    (p ≠ 0 → slot_addr sz base 0 ≤ p → p < slot_addr sz base C →
      (allocated_index t.pool p < C →
        ∃ sig s1, deallocate t.pool p = .ok (sig, s1) ∧
          (sig = .DoubleRelease ∨ sig = .released)) ∧
      (C ≤ allocated_index t.pool p → deallocate t.pool p = .error .out_of_range) ∧
      ((p - base) % sz = 0 → allocated_index t.pool p < C)) := by
  have hc := (sound_of_run sz base C ops t hL hrun).pool_ok
  have hbase := hL.2.1
  have hidx : allocated_index t.pool p = ptr_index sz base p := by
    simp [allocated_index, hc.h_sz, hc.h_base]
  simp only [slot_addr, Nat.zero_mul, Nat.add_zero, hidx]
  have hspec := deallocate_spec sz base C t.pool p hL hc
  refine ⟨?_, ?_, ?_⟩
  · intro sig s1 hd
    rcases hspec with
      ⟨h0, hx⟩ | ⟨h0, hr, hx⟩ | ⟨h0, hb, hp, _, hx⟩ | ⟨h0, hb, hp, _, hx, _⟩ | ⟨_, _, _, _, hx⟩
    · rw [hx] at hd; cases hd
      exact ⟨(fun h => by cases h), fun h => absurd h0 h.1⟩
    · rw [hx] at hd; cases hd
      exact ⟨fun _ => ⟨h0, hr⟩, fun _ => rfl⟩
    · rw [hx] at hd; cases hd
      refine ⟨(fun h => by cases h), fun h => ?_⟩
      omega
    · rw [hx] at hd; cases hd
      refine ⟨(fun h => by cases h), fun h => ?_⟩
      omega
    · rw [hx] at hd; cases hd
  · intro h0 hr
    refine deallocate_foreign t.pool p h0 ?_
    rw [hc.h_base, hc.h_cap, hc.h_sz]
    exact hr
  · intro h0 hb hp
    refine ⟨?_, ?_, fun hal => ptr_index_lt sz base C p hL hb hp hal⟩
    · intro hlt
      rcases hspec with
        ⟨h00, _⟩ | ⟨_, hr, _⟩ | ⟨_, _, _, _, hx⟩ | ⟨_, _, _, _, hx, _⟩ | ⟨_, _, _, hge, _⟩
      · exact absurd h00 h0
      · omega
      · exact ⟨_, _, hx, Or.inl rfl⟩
      · exact ⟨_, _, hx, Or.inr rfl⟩
      · omega
    · intro hge
      rcases hspec with
        ⟨h00, _⟩ | ⟨_, hr, _⟩ | ⟨_, _, _, hf, _⟩ | ⟨_, _, _, hf, _, _⟩ | ⟨_, _, _, _, hx⟩
      · exact absurd h00 h0
      · omega
      · have := consistent_flag_index_lt sz base C t.pool _ _ hc hf
        omega
      · have := consistent_flag_index_lt sz base C t.pool _ _ hc hf
        omega
      · exact hx

theorem foreign_iff_out_of_range_witness :
    Layout 12 4096 2 ∧
    run (fresh 12 4096 2) [.allocate] =
      .ok ⟨⟨12, 2, 4096, [4096], [false, true]⟩, [4108]⟩ ∧
    deallocate ⟨12, 2, 4096, [4096], [false, true]⟩ 4120 =
      .ok (.ForeignPointer, ⟨12, 2, 4096, [4096], [false, true]⟩) ∧
    deallocate ⟨12, 2, 4096, [4096], [false, true]⟩ 4112 = .error .out_of_range := by
  have h := foreign_iff_out_of_range 12 4096 2 [.allocate]
    ⟨⟨12, 2, 4096, [4096], [false, true]⟩, [4108]⟩
  exact ⟨by decide, by rfl,
    (h 4120 (by decide) (by rfl)).2.1 (by decide) (by decide),
    ((h 4112 (by decide) (by rfl)).2.2 (by decide) (by decide) (by decide)).2.1 (by decide)⟩

/-- C16, refuted as stated: with `T = std::array<int, 4>` and two slots, after
`allocate()` returned 4112 and `deallocate(4124)` (inside slot 1) was accepted, the flag
of slot 1 is clear although the slot address 4112 is not in the free-list. -/
theorem flag_iff_not_free_counterexample :
    run (fresh 16 4096 2) [.allocate, .deallocate 4124] =
      .ok ⟨⟨16, 2, 4096, [4096, 4124], [false, false]⟩, [4112]⟩ ∧
    (⟨16, 2, 4096, [4096, 4124], [false, false]⟩ : arena_pool).allocated_[1]? = some false ∧
    slot_addr 16 4096 1 ∉ (⟨16, 2, 4096, [4096, 4124], [false, false]⟩ : arena_pool).pool_ := by
  refine ⟨by rfl, by rfl, by decide⟩

/-- C16, amended: in every state reached from construction, for every slot index
`i < capacity` the flag of slot `i` is set iff no free-list entry belongs to slot `i`,
and then the address of slot `i` is not in the free-list; when no `deallocate` argument
of the sequence was in the interior of a slot, the flag of slot `i` is set iff the
address of slot `i` is not in the free-list. -/
theorem flag_iff_not_free (sz base C : Nat) (ops : List Call) (t : Tracked) (i : Nat)
    (hL : Layout sz base C) (hrun : run (fresh sz base C) ops = .ok t) (hi : i < C) :
    (t.pool.allocated_[i]? = some true ↔
      ∀ p ∈ t.pool.pool_, allocated_index t.pool p ≠ i) ∧
    (t.pool.allocated_[i]? = some true → slot_addr sz base i ∉ t.pool.pool_) ∧
    (granular_calls sz base C ops →
      (t.pool.allocated_[i]? = some true ↔ slot_addr sz base i ∉ t.pool.pool_)) := by
  have hc := (sound_of_run sz base C ops t hL hrun).pool_ok
  have hiff := consistent_flag_set_iff sz base C t.pool i hc hi
  have hidx : ∀ q, allocated_index t.pool q = ptr_index sz base q := by
    intro q; simp [allocated_index, hc.h_sz, hc.h_base]
  have hslot : ptr_index sz base (slot_addr sz base i) = i := by
    have := slot_addr_lt sz base C i hL hi
    have := hL.2.2
    exact ptr_index_slot sz base i hL.1 (by unfold slot_addr at *; omega)
  have hdir : t.pool.allocated_[i]? = some true → slot_addr sz base i ∉ t.pool.pool_ :=
    fun ht hm => hiff.mp ht _ hm hslot
  refine ⟨?_, hdir, ?_⟩
  · simp only [hidx]
    exact hiff
  · intro hg
    have he := exact_of_run sz base C ops t hL hg hrun
    refine ⟨hdir, fun hn => hiff.mpr ?_⟩
    intro p hp hpi
    apply hn
    have hr := hc.in_range p hp
    have := aligned_eq_slot sz base C p hL hr.1 hr.2 (he.pool_aligned p hp)
    rw [hpi] at this
    rw [← this]
    exact hp

theorem flag_iff_not_free_witness :
    Layout 16 4096 2 ∧ granular_calls 16 4096 2 [.allocate, .allocate, .deallocate 4112] ∧
    run (fresh 16 4096 2) [.allocate, .allocate, .deallocate 4112] =
      .ok ⟨⟨16, 2, 4096, [4112], [true, false]⟩, [4096]⟩ ∧
    (0 : Nat) < 2 ∧
    ((⟨16, 2, 4096, [4112], [true, false]⟩ : arena_pool).allocated_[0]? = some true ↔
      slot_addr 16 4096 0 ∉ (⟨16, 2, 4096, [4112], [true, false]⟩ : arena_pool).pool_) :=
  ⟨by decide, by decide, by rfl, by decide,
    (flag_iff_not_free 16 4096 2 [.allocate, .allocate, .deallocate 4112]
      ⟨⟨16, 2, 4096, [4112], [true, false]⟩, [4096]⟩ 0 (by decide) (by rfl)
      (by decide)).2.2 (by decide)⟩

/-- C17, refuted as stated: with `T = std::array<int, 4>` and one slot at 4096, after
`allocate()` and the accepted `deallocate(4108)` the free-list holds 4108, which is the
address of no slot. -/
theorem free_list_entries_counterexample :
    run (fresh 16 4096 1) [.allocate, .deallocate 4108] =
      .ok ⟨⟨16, 1, 4096, [4108], [false]⟩, [4096]⟩ ∧
    4108 ∈ (⟨16, 1, 4096, [4108], [false]⟩ : arena_pool).pool_ ∧
    ∀ i, slot_addr 16 4096 i ≠ 4108 := by
  refine ⟨by rfl, by decide, ?_⟩
  intro i
  unfold slot_addr
  omega

/-- C17, amended: in every state reached from construction, the free-list contains no
address more than once, no two of its entries belong to the same slot, and every entry
lies in the storage range; when no `deallocate` argument of the sequence was in the
interior of a slot, every entry is the address of a slot of the pool. -/
theorem free_list_entries (sz base C : Nat) (ops : List Call) (t : Tracked)
    (hL : Layout sz base C) (hrun : run (fresh sz base C) ops = .ok t) :
    t.pool.pool_.Nodup ∧
    (t.pool.pool_.map (allocated_index t.pool)).Nodup ∧
    (∀ p ∈ t.pool.pool_, slot_addr sz base 0 ≤ p ∧ p < slot_addr sz base C) ∧
    (granular_calls sz base C ops →
      ∀ p ∈ t.pool.pool_, ∃ i, i < C ∧ p = slot_addr sz base i) := by
  have hc := (sound_of_run sz base C ops t hL hrun).pool_ok
  have hfun : allocated_index t.pool = ptr_index sz base := by
    funext q; simp [allocated_index, hc.h_sz, hc.h_base]
  refine ⟨consistent_pool_nodup sz base C t.pool hc, by rw [hfun]; exact hc.nodup, ?_, ?_⟩
  · intro p hp
    simpa [slot_addr] using hc.in_range p hp
  · intro hg p hp
    have he := exact_of_run sz base C ops t hL hg hrun
    have hr := hc.in_range p hp
    exact ⟨ptr_index sz base p, hc.index_lt p hp,
      aligned_eq_slot sz base C p hL hr.1 hr.2 (he.pool_aligned p hp)⟩

theorem free_list_entries_witness :
    Layout 16 4096 3 ∧
    run (fresh 16 4096 3) [.allocate, .allocate, .deallocate 4128] =
      .ok ⟨⟨16, 3, 4096, [4096, 4128], [false, true, false]⟩, [4112]⟩ ∧
    (⟨16, 3, 4096, [4096, 4128], [false, true, false]⟩ : arena_pool).pool_.Nodup :=
  ⟨by decide, by rfl,
    (free_list_entries 16 4096 3 [.allocate, .allocate, .deallocate 4128]
      ⟨⟨16, 3, 4096, [4096, 4128], [false, true, false]⟩, [4112]⟩ (by decide) (by rfl)).1⟩

/-- C15: in every state reached from construction by any sequence of calls, accepted or
rejected, `|free_list|` plus the number of slots whose occupancy flag is set equals the
capacity. -/
theorem free_plus_occupied (sz base C : Nat) (ops : List Call) (t : Tracked)
    (hL : Layout sz base C) (hrun : run (fresh sz base C) ops = .ok t) :
    t.pool.pool_.length + occupied_count t.pool = capacity t.pool ∧ capacity t.pool = C := by
  have hc := (sound_of_run sz base C ops t hL hrun).pool_ok
  have h := run_count sz base C hL ops _ t (sound_fresh sz base C hL) hrun
  have hcap : capacity t.pool = C := hc.h_cap
  refine ⟨?_, hcap⟩
  rw [h, hcap]
  have h0 : List.count true (List.replicate C false) = 0 :=
    List.count_eq_zero_of_not_mem (by simp [List.mem_replicate])
  simp [fresh, construct, occupied_count, h0]

theorem free_plus_occupied_witness :
    Layout 16 4096 3 ∧
    run (fresh 16 4096 3) [.allocate, .allocate, .deallocate 4120, .deallocate 0] =
      .ok ⟨⟨16, 3, 4096, [4096, 4120], [false, false, true]⟩, [4112, 4128]⟩ ∧
    [4096, 4120].length + occupied_count ⟨16, 3, 4096, [4096, 4120], [false, false, true]⟩ =
      capacity ⟨16, 3, 4096, [4096, 4120], [false, false, true]⟩ :=
  ⟨by decide, by rfl,
    (free_plus_occupied 16 4096 3 [.allocate, .allocate, .deallocate 4120, .deallocate 0]
      ⟨⟨16, 3, 4096, [4096, 4120], [false, false, true]⟩, [4112, 4128]⟩
      (by decide) (by rfl)).1⟩

/-- C18: with the assertions compiled out, a misuse call of `deallocate` does corrupt the
pool silently. With `T = std::array<int, 4>` and both slots 4096 and 4112 allocated, the
foreign address 4104 (non-null, the address of no slot) takes none of the three assertion
paths: `deallocate(4104)` returns as a release, the free-list and the occupancy table
differ from before, the free-list now holds an address that is no slot address, and the
flag of slot 0 is clear although the address of slot 0 is not in the free-list; both
invariants held before the call. -/
theorem misuse_corrupts_state :
    ∃ (sz base C : Nat) (ops : List Call) (t : Tracked) (p : Nat) (s1 : arena_pool),
      Layout sz base C ∧ run (fresh sz base C) ops = .ok t ∧
      p ≠ 0 ∧ (∀ i, slot_addr sz base i ≠ p) ∧
      deallocate t.pool p = .ok (.released, s1) ∧
      s1.pool_ ≠ t.pool.pool_ ∧ s1.allocated_ ≠ t.pool.allocated_ ∧
      (∀ q ∈ t.pool.pool_, ∃ i, i < C ∧ q = slot_addr sz base i) ∧
      ¬ (∀ q ∈ s1.pool_, ∃ i, i < C ∧ q = slot_addr sz base i) ∧
      (∀ i, i < C →
        (t.pool.allocated_[i]? = some true ↔ slot_addr sz base i ∉ t.pool.pool_)) ∧
      ¬ (∀ i, i < C → (s1.allocated_[i]? = some true ↔ slot_addr sz base i ∉ s1.pool_)) := by
  refine ⟨16, 4096, 2, [.allocate, .allocate],
    ⟨⟨16, 2, 4096, [], [true, true]⟩, [4096, 4112]⟩, 4104,
    ⟨16, 2, 4096, [4104], [false, true]⟩,
    by decide, by rfl, by decide, ?_, by rfl, by decide, by decide, by simp, ?_, ?_, ?_⟩
  · intro i
    unfold slot_addr
    omega
  · intro h
    obtain ⟨i, _, hi⟩ := h 4104 (by simp)
    unfold slot_addr at hi
    omega
  · intro i hi
    have : i = 0 ∨ i = 1 := by omega
    rcases this with rfl | rfl <;> simp
  · intro h
    have h0 := (h 0 (by decide)).mpr (by decide)
    simp at h0

end ArenaPool
